import Mathlib

/-!
Verification development for the YouTubeLiveClipper core (src/app.py).

Modelling conventions:
* Python strings are modelled as List Char.
* Fallible Python code (try/except, regex match failure, dict lookup) is
  modelled with Option.
* Python float values reaching the score pipeline are idealized as exact
  rationals, represented by an integer numerator and a positive natural
  denominator (PyNum) so that every operation reduces in the kernel.
* External collaborators (yt_dlp download, ffmpeg, the filesystem, socketio)
  are modelled as oracle inputs and an event trace; json.loads and urlparse
  are standard-library externals whose outcome is an input (Option JValue,
  Option UrlParts).
* Regex use is limited to three fixed patterns, which are compiled here into
  explicit matching functions with the same backtracking behaviour, over
  ASCII digits (the Unicode-digit fringe of Python regexes is out of scope).
-/

/-- Python regex class \s and str.strip whitespace, restricted to the
whitespace code points of Unicode plus the ASCII control whitespace that
Python treats as space (U+200B and U+FEFF are deliberately NOT here:
Python does not consider them whitespace). -/
def pyIsSpace (c : Char) : Bool :=
  let n := c.toNat
  n == 32 || n == 9 || n == 10 || n == 13 || n == 11 || n == 12 ||
  (decide (28 ≤ n) && decide (n ≤ 31)) || n == 0x85 || n == 0xa0 ||
  n == 0x1680 || (decide (0x2000 ≤ n) && decide (n ≤ 0x200a)) ||
  n == 0x2028 || n == 0x2029 || n == 0x202f || n == 0x205f || n == 0x3000

/-- ASCII decimal digit, the reachable fragment of the regex class \d. -/
def isDigitChar (c : Char) : Bool :=
  decide (48 ≤ c.toNat) && decide (c.toNat ≤ 57)

/-- Numeric value of a digit character. -/
def digitVal (c : Char) : Nat := c.toNat - 48

/-- The decimal digit character for a value below 10 (clamped above). -/
def digitChar : Nat → Char
  | 0 => '0' | 1 => '1' | 2 => '2' | 3 => '3' | 4 => '4'
  | 5 => '5' | 6 => '6' | 7 => '7' | 8 => '8' | _ => '9'

/-- Decimal digit string of a natural number, fuel-structured so that it
reduces in the kernel (fuel is always sufficient, see natDigits). -/
def natDigitsFuel : Nat → Nat → List Char
  | 0, _ => []
  | fuel + 1, n =>
    if n < 10 then [digitChar n]
    else natDigitsFuel fuel (n / 10) ++ [digitChar (n % 10)]

/-- Decimal digit string of a natural number, as Python str(n) prints it. -/
def natDigits (n : Nat) : List Char := natDigitsFuel (n + 1) n

/-- The Python format specifier 02d: zero-pad to width 2, wider numbers are
printed in full. -/
def pad2 (n : Nat) : List Char :=
  if n < 10 then '0' :: natDigits n else natDigits n

/-- Decimal value of a digit string (the core of int() on digit input). -/
def listToNat (l : List Char) : Nat :=
  l.foldl (fun a c => a * 10 + digitVal c) 0

/-- format_time from src/app.py line 68: seconds to a bracketed timecode
[HH:MM:SS].  The int(float(..)) truncation is the identity on the natural
number inputs modelled here, and the except-branch returning [00:00:00] is
unreachable for them. -/
def format_time (seconds : Nat) : List Char :=
  '[' :: (pad2 (seconds / 3600) ++
    ':' :: (pad2 (seconds % 3600 / 60) ++ ':' :: (pad2 (seconds % 60) ++ [']'])))

/-- Remove a leading and a trailing character; the spec-level inverse of the
bracketing done by format_time. -/
def stripBrackets (l : List Char) : List Char := (l.drop 1).dropLast

/-- Python str.strip(): drop leading and trailing whitespace. -/
def pyStrip (l : List Char) : List Char :=
  (((l.dropWhile pyIsSpace).reverse.dropWhile pyIsSpace)).reverse

/-- Trailing part of the timecode regex, after the optional second colon:
the pattern fragment (\d\x7b2\x7d)$ preceded by an optional colon.  When the
head is a colon, the colon-skipping alternative of :? cannot match a digit
there, so consuming the colon is the only possibility, faithfully to the
backtracking of re.match. -/
def matchG3 : List Char → Option (List Char)
  | c :: d :: [] => if isDigitChar c && isDigitChar d then some [c, d] else none
  | _ => none

/-- Fragment :?(\d\x7b2\x7d)$ of the timecode regex. -/
def matchTail2 : List Char → Option (List Char)
  | [] => none
  | c0 :: rest0 => if c0 = ':' then matchG3 rest0 else matchG3 (c0 :: rest0)

/-- Fragment (\d\x7b2\x7d):?(\d\x7b2\x7d)$ of the timecode regex. -/
def matchG2 : List Char → Option (List Char × List Char)
  | c :: d :: r2 =>
    if isDigitChar c && isDigitChar d then
      (matchTail2 r2).map (fun g3 => ([c, d], g3))
    else none
  | _ => none

/-- Fragment :?(\d\x7b2\x7d):?(\d\x7b2\x7d)$ of the timecode regex. -/
def matchTail : List Char → Option (List Char × List Char)
  | [] => none
  | c0 :: rest0 => if c0 = ':' then matchG2 rest0 else matchG2 (c0 :: rest0)

/-- The flexible timecode regex of extract_segments line 404,
^(\d\x7b1,2\x7d):?(\d\x7b2\x7d):?(\d\x7b2\x7d)$ with the greedy 1-2 digit
hour group: two hour digits are attempted first, then one, exactly as
re.match backtracks. -/
def timePatternMatch : List Char → Option (List Char × List Char × List Char)
  | [] => none
  | a :: rest =>
    if isDigitChar a then
      match rest with
      | [] => none
      | b :: rest2 =>
        if isDigitChar b then
          match matchTail rest2 with
          | some (g2, g3) => some ([a, b], g2, g3)
          | none =>
            match matchTail rest with
            | some (g2, g3) => some ([a], g2, g3)
            | none => none
        else
          match matchTail rest with
          | some (g2, g3) => some ([a], g2, g3)
          | none => none
    else none

/-- Split a list at every occurrence of a separator character, like the
Python str.split with an explicit separator. -/
def splitOnChar (sep : Char) : List Char → List (List Char)
  | [] => [[]]
  | c :: rest =>
    let r := splitOnChar sep rest
    if c = sep then [] :: r
    else
      match r with
      | [] => [[c]]
      | p :: ps => (c :: p) :: ps

/-- Python int() on a string: optional surrounding whitespace, an optional
sign, then at least one ASCII digit (the digit-grouping underscore and
non-ASCII digits are out of modelled scope). -/
def pyParseInt (l : List Char) : Option Int :=
  match pyStrip l with
  | [] => none
  | c :: ds =>
    if c = '-' then
      if ds ≠ [] ∧ ds.all isDigitChar then some (-(listToNat ds : Int)) else none
    else if c = '+' then
      if ds ≠ [] ∧ ds.all isDigitChar then some ((listToNat ds : Int)) else none
    else if (c :: ds).all isDigitChar then some ((listToNat (c :: ds) : Int))
    else none

/-- time_to_seconds as defined twice in src/app.py (lines 298 and 418):
split on colons, unpack exactly three fields, convert each with int().
Any failure raises, which the callers turn into a skip, hence Option. -/
def time_to_seconds (l : List Char) : Option Int :=
  match splitOnChar ':' l with
  | [a, b, c] =>
    match pyParseInt a, pyParseInt b, pyParseInt c with
    | some h, some m, some s => some (h * 3600 + m * 60 + s)
    | _, _, _ => none
  | _ => none

/-- Canonical HH:MM:SS rendering of the three matched groups
(line 414: the hour group goes through int() and 02d padding). -/
def normTime (g1 g2 g3 : List Char) : List Char :=
  pad2 (listToNat g1) ++ ':' :: (g2 ++ ':' :: g3)

/-- The complete flexible timecode parse of the Segment Validator: strip,
match the flexible pattern, re-render canonically, convert to seconds.
Returns the canonical text together with the seconds value. -/
def parse_timecode (l : List Char) : Option (List Char × Int) :=
  match timePatternMatch (pyStrip l) with
  | some (g1, g2, g3) =>
    match time_to_seconds (normTime g1 g2 g3) with
    | some v => some (normTime g1 g2 g3, v)
    | none => none
  | none => none

/-- Split at the first occurrence of the character that closes an HTML tag,
returning the text before it and after it. -/
def splitAtGt : List Char → Option (List Char × List Char)
  | [] => none
  | c :: rest =>
    if c = '>' then some ([], rest)
    else
      match splitAtGt rest with
      | some (b, a) => some (c :: b, a)
      | none => none

/-- One pass of re.sub removing every leftmost non-overlapping match of the
tag pattern: at an opening angle bracket, the greedy character class runs to
the first closing bracket, and a match needs at least one character between
the brackets.  Fuel-structured (the list shrinks at every step) so that the
kernel can evaluate it; fuel equal to the length is always enough. -/
def removeTagsFuel : Nat → List Char → List Char
  | 0, l => l
  | fuel + 1, l =>
    match l with
    | [] => []
    | c :: rest =>
      if c = '<' then
        match splitAtGt rest with
        | some (before, after) =>
          if before = [] then c :: removeTagsFuel fuel rest
          else removeTagsFuel fuel after
        | none => c :: removeTagsFuel fuel rest
      else c :: removeTagsFuel fuel rest

/-- HTML tag removal of clean_text (src/app.py line 84). -/
def removeTags (l : List Char) : List Char := removeTagsFuel l.length l

/-- Whitespace collapsing of clean_text (line 86): every maximal run of
regex whitespace becomes a single space. -/
def collapseWsAux : Bool → List Char → List Char
  | _, [] => []
  | inRun, c :: rest =>
    if pyIsSpace c then
      if inRun then collapseWsAux true rest else ' ' :: collapseWsAux true rest
    else c :: collapseWsAux false rest

/-- Whitespace collapsing of clean_text, entry point. -/
def collapseWs (l : List Char) : List Char := collapseWsAux false l

/-- Zero-width and BOM removal of clean_text (line 88): the two chained
str.replace calls delete every occurrence of U+200B and U+FEFF. -/
def removeZw (l : List Char) : List Char :=
  l.filter (fun c => !(c = '​' || c = '﻿'))

/-- clean_text from src/app.py line 80: strip tags, collapse whitespace,
remove zero-width and BOM characters, trim.  The except branch returning the
input is unreachable: none of these operations raises. -/
def clean_text (l : List Char) : List Char :=
  pyStrip (removeZw (collapseWs (removeTags l)))

/-- Raw caption item as both acquisition sources deliver it: a start offset
and a raw text.  The start is modelled as the truncated whole second, which
is exactly what int(float(start)) inside format_time computes from the
possibly fractional offset. -/
structure RawItem where
  start : Nat
  text : List Char

/-- Python single-space str.join. -/
def joinSpace : List (List Char) → List Char
  | [] => []
  | [t] => t
  | t :: rest => t ++ ' ' :: joinSpace rest

/-- The merging loop of download_video_and_subtitles (lines 170-192) for the
transcript-API source, carrying the pending timestamp string and the pending
cleaned texts; each output pair is the timestamp string and the space-joined
text of one emitted line (the source renders the pair as one line, see
subtitleLines). -/
def normalizeLoop : List RawItem → Option (List Char) → List (List Char) →
    List (List Char × List Char)
  | [], none, _ => []
  | [], some ct, cur => if cur = [] then [] else [(ct, joinSpace cur)]
  | item :: rest, currentTime, currentText =>
    let t := format_time item.start
    let x := clean_text item.text
    if x = [] then normalizeLoop rest currentTime currentText
    else
      match currentTime with
      | some ct =>
        if ct = t then normalizeLoop rest (some ct) (currentText ++ [x])
        else
          (if currentText = [] then [] else [(ct, joinSpace currentText)]) ++
            normalizeLoop rest (some t) [x]
      | none => normalizeLoop rest (some t) [x]

/-- Transcript Normalizer, transcript-API branch: the loop started with no
pending line. -/
def normalizePairs (items : List RawItem) : List (List Char × List Char) :=
  normalizeLoop items none []

/-- Render normalizer output pairs as the persisted transcript lines
(f-string at lines 186 and 192). -/
def subtitleLines (pairs : List (List Char × List Char)) : List (List Char) :=
  pairs.map (fun p => p.1 ++ ' ' :: p.2)

/-- The yt-dlp fallback formatting loop (lines 205-210): one line per item
whose cleaned text is non-empty, with no merging. -/
def normalize_yt_dlp (items : List RawItem) : List (List Char × List Char) :=
  items.filterMap (fun it =>
    let x := clean_text it.text
    if x = [] then none else some (format_time it.start, x))

/-- Modelled from the spec wording of the Transcript Normalizer: drop items
whose cleaned text is empty, keeping the truncated-second timestamp with the
cleaned text. -/
def cleanedItems (items : List RawItem) : List (Nat × List Char) :=
  items.filterMap (fun it =>
    let x := clean_text it.text
    if x = [] then none else some (it.start, x))

/-- Modelled from the spec wording: group maximal runs of consecutive items
sharing the same timestamp. -/
def groupConsec : List (Nat × List Char) → List (Nat × List (List Char))
  | [] => []
  | (t, x) :: rest =>
    match groupConsec rest with
    | [] => [(t, [x])]
    | (u, xs) :: gs =>
      if t = u then (t, x :: xs) :: gs else (t, [x]) :: ((u, xs) :: gs)

/-- Modelled from the spec wording of the Transcript Normalizer (claim C4):
drop empty-cleaned items, merge consecutive same-timestamp items into one
line joining the cleaned texts with single spaces in input order. -/
def normalizeSpec (items : List RawItem) : List (List Char × List Char) :=
  (groupConsec (cleanedItems items)).map (fun g => (format_time g.1, joinSpace g.2))

/-- A run of two or more whitespace characters exists somewhere. -/
def hasDoubleWs : List Char → Bool
  | a :: b :: r => (pyIsSpace a && pyIsSpace b) || hasDoubleWs (b :: r)
  | _ => false

/-- Some substring matches the HTML tag pattern of clean_text: an opening
bracket, at least one character other than the closing bracket, then the
closing bracket. -/
def hasTag : List Char → Bool
  | [] => false
  | c :: rest =>
    if c = '<' then
      match splitAtGt rest with
      | some (before, _) => if before = [] then hasTag rest else true
      | none => hasTag rest
    else hasTag rest

/-- Text free of zero-width and BOM characters. -/
def zwFree (l : List Char) : Prop := ∀ c ∈ l, c ≠ '​' ∧ c ≠ '﻿'

/-- Text with no leading and no trailing whitespace character. -/
def noEdgeWs (l : List Char) : Prop :=
  (∀ c, l.head? = some c → pyIsSpace c = false) ∧
  (∀ c, l.getLast? = some c → pyIsSpace c = false)

/-- Exact rational value of a Python number: integer numerator over a
positive natural denominator.  Floating point is idealized as exact
arithmetic; every construction below keeps the denominator positive. -/
structure PyNum where
  num : Int
  den : Nat
deriving DecidableEq

/-- Rational value of a PyNum, for specification-level statements. -/
def pnVal (q : PyNum) : ℚ := (q.num : ℚ) / (q.den : ℚ)

/-- The result of json.loads: null, booleans, integers, non-integer numbers
(idealized as exact rationals), strings, arrays, objects.  Objects are
association lists with distinct keys, as Python dicts deliver them. -/
inductive JValue where
  | null
  | jbool (b : Bool)
  | jint (n : Int)
  | jnum (q : ℚ)
  | jstr (s : List Char)
  | jarr (elems : List JValue)
  | jobj (fields : List (List Char × JValue))

/-- Leading run of ASCII digits and the remainder. -/
def takeDigits (l : List Char) : List Char × List Char :=
  (l.takeWhile isDigitChar, l.dropWhile isDigitChar)

/-- Mantissa of a float literal: digits, optionally a dot and more digits;
at least one digit on one of the two sides.  Returns the digits read as an
integer, the count of fractional digits, and the remaining input (the
mantissa value is the integer divided by ten to the count). -/
def parseMantissa (l : List Char) : Option (Int × Nat × List Char) :=
  let (ip, r1) := takeDigits l
  match r1 with
  | '.' :: r2 =>
    let (fp, r3) := takeDigits r2
    if ip = [] ∧ fp = [] then none
    else some ((listToNat ip * 10 ^ fp.length + listToNat fp : Nat), fp.length, r3)
  | _ => if ip = [] then none else some ((listToNat ip : Nat), 0, r1)

/-- Optional exponent part of a float literal; fails on trailing garbage. -/
def parseExponent (l : List Char) : Option Int :=
  match l with
  | [] => some 0
  | e :: r1 =>
    if e = 'e' ∨ e = 'E' then
      match r1 with
      | '-' :: ds =>
        if ds ≠ [] ∧ ds.all isDigitChar then some (-(listToNat ds : Int)) else none
      | '+' :: ds =>
        if ds ≠ [] ∧ ds.all isDigitChar then some ((listToNat ds : Int)) else none
      | ds =>
        if ds ≠ [] ∧ ds.all isDigitChar then some ((listToNat ds : Int)) else none
    else none

/-- Python float() on a string: surrounding whitespace, optional sign,
decimal mantissa, optional exponent.  The inf/nan words, underscores and
non-ASCII digits are outside the modelled scope; unparseable input is none,
which the caller turns into the substituted score. -/
def pyFloatOfString (l : List Char) : Option PyNum :=
  let t := pyStrip l
  let signed : Int × List Char :=
    match t with
    | '-' :: r => (-1, r)
    | '+' :: r => (1, r)
    | r => (1, r)
  match parseMantissa signed.2 with
  | some (mn, k, rest) =>
    match parseExponent rest with
    | some e =>
      if 0 ≤ e then some ⟨signed.1 * mn * 10 ^ e.toNat, 10 ^ k⟩
      else some ⟨signed.1 * mn, 10 ^ k * 10 ^ (-e).toNat⟩
    | none => none
  | none => none

/-- Python float() on a decoded JSON value: numbers and booleans convert,
numeric strings parse, everything else raises ValueError or TypeError,
which the score loop catches. -/
def pyFloat : JValue → Option PyNum
  | JValue.jint n => some ⟨n, 1⟩
  | JValue.jnum q => some ⟨q.num, q.den⟩
  | JValue.jbool b => some ⟨if b then 1 else 0, 1⟩
  | JValue.jstr s => pyFloatOfString s
  | _ => none

/-- Strict numeric comparison of two PyNum values by cross multiplication. -/
def pnLtB (a b : PyNum) : Bool :=
  decide (a.num * (b.den : Int) < b.num * (a.den : Int))

/-- Numeric less-or-equal of two PyNum values by cross multiplication. -/
def pnLeB (a b : PyNum) : Bool :=
  decide (a.num * (b.den : Int) ≤ b.num * (a.den : Int))

/-- Python min of two numbers (first argument on ties). -/
def pnMin (a b : PyNum) : PyNum := if pnLtB b a then b else a

/-- Python max of two numbers (first argument on ties). -/
def pnMax (a b : PyNum) : PyNum := if pnLtB a b then b else a

/-- Python round() to an integer: banker rounding, halves go to the even
neighbour.  Int.ediv floors for the positive denominators produced by
pyFloat. -/
def pyRoundInt (q : PyNum) : Int :=
  let f := q.num / (q.den : Int)
  let r2 := 2 * (q.num - f * (q.den : Int))
  if r2 < (q.den : Int) then f
  else if (q.den : Int) < r2 then f + 1
  else if f % 2 = 0 then f else f + 1

/-- Score normalization of extract_segments lines 388-396: coerce the field
with float(), on failure substitute 5; clamp into [1,10] via max/min when
out of range; round to the nearest integer with round() and int(). -/
def normalizeScore (v : JValue) : Int :=
  match pyFloat v with
  | none => 5
  | some q =>
    let score := if pnLeB ⟨1, 1⟩ q && pnLeB q ⟨10, 1⟩ then q
      else pnMax ⟨1, 1⟩ (pnMin ⟨10, 1⟩ q)
    pyRoundInt score

/-- Decimal digits of the fractional remainder r over d, up to the fuel. -/
def fracDigitsFuel : Nat → Nat → Nat → List Char
  | 0, _, _ => []
  | fuel + 1, r, d =>
    if r = 0 then []
    else digitChar (r * 10 / d) :: fracDigitsFuel fuel (r * 10 % d) d

/-- Python str() of an integer. -/
def intRepr (n : Int) : List Char :=
  if n < 0 then '-' :: natDigits n.natAbs else natDigits n.natAbs

/-- Python str() of a float, idealized: sign, integer part, a dot, then the
decimal expansion to at most 17 places (the shortest-roundtrip rule of real
float repr is outside the rational idealization). -/
def floatRepr (q : PyNum) : List Char :=
  let a := q.num.natAbs
  let ip := a / q.den
  let frac := fracDigitsFuel 17 (a % q.den) q.den
  let frac2 := if frac = [] then ['0'] else frac
  (if q.num < 0 then ['-'] else []) ++ natDigits ip ++ '.' :: frac2

/-- Comma-space separated join used by Python container reprs. -/
def joinCommaSep : List (List Char) → List Char
  | [] => []
  | [t] => t
  | t :: rest => t ++ ',' :: ' ' :: joinCommaSep rest

/-- Python repr() of a decoded JSON value, fuel-structured over the nesting
depth; string quoting is idealized with single quotes and no escaping. -/
def jReprFuel : Nat → JValue → List Char
  | 0, _ => []
  | fuel + 1, v =>
    match v with
    | JValue.null => "None".data
    | JValue.jbool true => "True".data
    | JValue.jbool false => "False".data
    | JValue.jint n => intRepr n
    | JValue.jnum q => floatRepr ⟨q.num, q.den⟩
    | JValue.jstr s => Char.ofNat 39 :: s ++ [Char.ofNat 39]
    | JValue.jarr xs => '[' :: joinCommaSep (xs.map (jReprFuel fuel)) ++ [']']
    | JValue.jobj fs =>
      Char.ofNat 123 ::
        joinCommaSep (fs.map (fun f =>
          (Char.ofNat 39 :: f.1 ++ [Char.ofNat 39]) ++ ':' :: ' ' :: jReprFuel fuel f.2)) ++
        [Char.ofNat 125]

mutual

/-- Nesting depth of a decoded JSON value, the fuel bound for jReprFuel. -/
def jDepth : JValue → Nat
  | JValue.jarr xs => jDepthList xs + 1
  | JValue.jobj fs => jDepthFields fs + 1
  | _ => 1

/-- Nesting depth of a list of JSON values. -/
def jDepthList : List JValue → Nat
  | [] => 0
  | x :: xs => max (jDepth x) (jDepthList xs)

/-- Nesting depth of the field list of a JSON object. -/
def jDepthFields : List (List Char × JValue) → Nat
  | [] => 0
  | f :: fs => max (jDepth f.2) (jDepthFields fs)

end

/-- Python str() of a decoded JSON value: strings pass through unquoted,
containers use repr of their elements. -/
def pyStr (v : JValue) : List Char :=
  match v with
  | JValue.jstr s => s
  | _ => jReprFuel (jDepth v) v

/-- The anchored transcript-line regex of filter_subtitles_by_time line 310:
a bracketed two-digit timecode at the start of the line, with the rest of
the line as the text group. -/
def bracketMatch (l : List Char) :
    Option (List Char × List Char × List Char × List Char) :=
  match l with
  | c0 :: a :: b :: c1 :: c :: d :: c2 :: e :: f :: c3 :: rest =>
    if c0 = '[' ∧ c1 = ':' ∧ c2 = ':' ∧ c3 = ']' ∧
        isDigitChar a ∧ isDigitChar b ∧ isDigitChar c ∧ isDigitChar d ∧
        isDigitChar e ∧ isDigitChar f then
      some ([a, b], [c, d], [e, f], rest)
    else none
  | _ => none

/-- Timestamp of a transcript line: the bracketed groups re-joined with
colons and converted by time_to_seconds, exactly as lines 310-313 do.
The conversion cannot fail on matched digit groups, so none means the line
has no timestamp. -/
def lineStamp (l : List Char) : Option Int :=
  match bracketMatch l with
  | some (h, m, s, _) => time_to_seconds (h ++ ':' :: (m ++ ':' :: s))
  | none => none

/-- Inner loop of filter_subtitles_by_time: skip blank lines, skip lines
without a leading bracketed timecode, keep lines whose timestamp lies in the
closed interval. -/
def filterLoop (ss es : Int) : List (List Char) → List (List Char)
  | [] => []
  | line :: rest =>
    if pyStrip line = [] then filterLoop ss es rest
    else
      match lineStamp line with
      | some t =>
        if ss ≤ t ∧ t ≤ es then line :: filterLoop ss es rest
        else filterLoop ss es rest
      | none => filterLoop ss es rest

/-- filter_subtitles_by_time from src/app.py line 294.  A failing conversion
of either bound raises inside the try block, and the except branch returns
the empty list. -/
def filter_subtitles_by_time (subtitles : List (List Char))
    (start_time end_time : List Char) : List (List Char) :=
  match time_to_seconds start_time, time_to_seconds end_time with
  | some ss, some es => filterLoop ss es subtitles
  | _, _ => []

/-- Parsed URL as urlparse plus parse_qs deliver it: optional lowercased
hostname, path, and the parsed query mapping each key to its value list.
A raising urlparse is modelled by passing none to extract_video_id. -/
structure UrlParts where
  hostname : Option (List Char)
  path : List Char
  query : List (List Char × List (List Char))

/-- Hostname literal www.youtube.com. -/
def hostWww : List Char := "www.youtube.com".data

/-- Hostname literal youtube.com. -/
def hostYt : List Char := "youtube.com".data

/-- Hostname literal youtu.be. -/
def hostBe : List Char := "youtu.be".data

/-- Path literal /watch. -/
def pathWatch : List Char := "/watch".data

/-- Path component literal /live/. -/
def liveLit : List Char := "/live/".data

/-- Path component literal /shorts/. -/
def shortsLit : List Char := "/shorts/".data

/-- Query key literal v. -/
def keyV : List Char := "v".data

/-- Python str.startswith on list-of-characters strings. -/
def startsWith2 (pre l : List Char) : Bool := decide (l.take pre.length = pre)

/-- Last component of path.split on the slash character. -/
def lastComp (p : List Char) : List Char := (splitOnChar '/' p).getLastD []

/-- extract_video_id from src/app.py line 36, over the parsed URL.  The
try/except wrapper catches a raising urlparse (the none input) and the
IndexError of taking the head of an empty value list; .get with the [None]
default covers a missing v key. -/
def extract_video_id (u : Option UrlParts) : Option (List Char) :=
  match u with
  | none => none
  | some p =>
    if p.hostname = some hostWww ∨ p.hostname = some hostYt then
      if p.path = pathWatch then
        match p.query.lookup keyV with
        | some (x :: _) => some x
        | some [] => none
        | none => none
      else if startsWith2 liveLit p.path || startsWith2 shortsLit p.path then
        some (lastComp p.path)
      else none
    else if p.hostname = some hostBe then some (p.path.drop 1)
    else none

/-- Field key literal start. -/
def keyStart : List Char := "start".data

/-- Field key literal end. -/
def keyEnd : List Char := "end".data

/-- Field key literal impact. -/
def keyImpact : List Char := "impact".data

/-- Field key literal uniqueness. -/
def keyUniq : List Char := "uniqueness".data

/-- Field key literal timeliness. -/
def keyTime : List Char := "timeliness".data

/-- Field key literal entertainment. -/
def keyEnt : List Char := "entertainment".data

/-- Field key literal reason. -/
def keyReason : List Char := "reason".data

/-- Field key literal title. -/
def keyTitle : List Char := "title".data

/-- Filename literal clip_. -/
def litClip : List Char := "clip_".data

/-- Filename literal underscore. -/
def litUnderscore : List Char := "_".data

/-- Filename literal _subtitles.txt. -/
def litSubsSuffix : List Char := "_subtitles.txt".data

/-- Filename literal .mp4. -/
def litMp4 : List Char := ".mp4".data

/-- The fallback reason sentence of line 472. -/
def fallbackReason : List Char := "理由が十分に説明されていません。".data

/-- The default title stem of line 467 (with its trailing space). -/
def defaultTitleLit : List Char := "切り抜き ".data

/-- Python str.replace with a non-empty pattern: leftmost non-overlapping
occurrences, fuel-structured on the input length. -/
def replaceAllFuel : Nat → List Char → List Char → List Char → List Char
  | 0, _, _, l => l
  | fuel + 1, pat, rep, l =>
    match l with
    | [] => []
    | c :: rest =>
      if startsWith2 pat (c :: rest) then
        rep ++ replaceAllFuel fuel pat rep ((c :: rest).drop pat.length)
      else c :: replaceAllFuel fuel pat rep rest

/-- Python str.replace for the non-empty patterns used by the source. -/
def pyReplace (pat rep l : List Char) : List Char :=
  replaceAllFuel l.length pat rep l

/-- The replace of colons by underscores used in clip filenames
(lines 430 and 436). -/
def colonUnderscore (l : List Char) : List Char :=
  l.map (fun c => if c = ':' then '_' else c)

/-- Common stem of the per-segment output filenames. -/
def clipStem (vid st en : List Char) : List Char :=
  litClip ++ vid ++ litUnderscore ++ colonUnderscore st ++ litUnderscore ++
    colonUnderscore en

/-- The required field keys of line 380, in source order. -/
def requiredKeys : List (List Char) :=
  [keyStart, keyEnd, keyImpact, keyUniq, keyTime, keyEnt, keyReason]

/-- The all(field in segment) membership test of line 381. -/
def requiredPresent (fields : List (List Char × JValue)) : Bool :=
  requiredKeys.all (fun k => (fields.lookup k).isSome)

/-- Timecode handling of one candidate (lines 400-424): both fields must be
strings (otherwise .strip() raises and the per-segment handler skips), both
must match the flexible pattern, both are re-rendered canonically and
converted to seconds.  Composing the steps per timecode instead of per stage
is behaviour-preserving: all stages are pure and a failure anywhere skips
the candidate. -/
def parseSegTimes (fields : List (List Char × JValue)) :
    Option (List Char × List Char × Int × Int) :=
  match fields.lookup keyStart, fields.lookup keyEnd with
  | some (JValue.jstr s0), some (JValue.jstr e0) =>
    match parse_timecode s0, parse_timecode e0 with
    | some (st, ss), some (en, es) => some (st, en, ss, es)
    | _, _ => none
  | _, _ => none

/-- The reason normalization of line 472: str, strip, keep when at least 10
characters long, otherwise the fallback sentence. -/
def reasonOf (fields : List (List Char × JValue)) : List Char :=
  let r := pyStrip (pyStr ((fields.lookup keyReason).getD JValue.null))
  if 10 ≤ r.length then r else fallbackReason

/-- One invocation of the external trim command: the arguments that vary
between calls (input temp file and quality flags are fixed). -/
structure TrimCall where
  startSec : Int
  duration : Int
  output : List Char
deriving DecidableEq

/-- Observable side effects of one extraction run, in program order. -/
inductive Event where
  | download
  | writeExcerpt (name : List Char) (content : List (List Char))
  | trim (call : TrimCall)
  | unlinkTemp
deriving DecidableEq

/-- One produced segment record, the dict appended at line 461. -/
structure SegRecord where
  start_time : List Char
  end_time : List Char
  video_title : List Char
  subtitle_file : List Char
  video_file : List Char
  title : JValue
  impact : Int
  uniqueness : Int
  timeliness : Int
  entertainment : Int
  reason : List Char

/-- Inputs of one extraction run: the three call arguments plus the oracles
for every external effect (file read outcome, temp file pre-existence,
download outcome, whether a failed download left a partial file, and the
exit status of each trim invocation as a function of its arguments). -/
structure ExtractEnv where
  subtitle_file : List Char
  url : Option UrlParts
  reply : Option JValue
  fileContent : Option (List (List Char))
  tempExists0 : Bool
  downloadOk : Bool
  downloadLeftFile : Bool
  ffmpegOk : TrimCall → Bool

/-- Outcome of one extraction run: the returned value, whether the shared
temp file exists afterwards, the per-segment files created, and the event
trace. -/
structure ExtractOut where
  result : Option (List SegRecord)
  tempExists : Bool
  files : List (List Char)
  events : List Event

/-- Per-candidate processing (lines 373-482): the files it creates, the
events it emits, and its record when it survives.  Every failure (missing
field, non-string or unmatched timecode, non-zero trim exit) yields none;
the subtitle excerpt is written before the trim runs, so a trim failure
still leaves the excerpt file.  k is len(results), used by the default
title. -/
def processSegment (vid : List Char) (allSubs : List (List Char))
    (sfile : List Char) (ffmpegOk : TrimCall → Bool) (k : Nat) (seg : JValue) :
    List (List Char) × List Event × Option SegRecord :=
  match seg with
  | JValue.jobj fields =>
    if requiredPresent fields then
      match parseSegTimes fields with
      | some (st, en, ss, es) =>
        let dur := es - ss
        let segSubs := filter_subtitles_by_time allSubs st en
        let exName := clipStem vid st en ++ litSubsSuffix
        let outName := clipStem vid st en ++ litMp4
        let call : TrimCall := ⟨ss, dur, outName⟩
        if ffmpegOk call then
          ([exName, outName],
           [Event.writeExcerpt exName segSubs, Event.trim call],
           some { start_time := st, end_time := en,
                  video_title := pyReplace litSubsSuffix [] (lastComp sfile),
                  subtitle_file := exName, video_file := outName,
                  title := (fields.lookup keyTitle).getD
                    (JValue.jstr (defaultTitleLit ++ natDigits (k + 1))),
                  impact := normalizeScore ((fields.lookup keyImpact).getD JValue.null),
                  uniqueness := normalizeScore ((fields.lookup keyUniq).getD JValue.null),
                  timeliness := normalizeScore ((fields.lookup keyTime).getD JValue.null),
                  entertainment := normalizeScore ((fields.lookup keyEnt).getD JValue.null),
                  reason := reasonOf fields })
        else ([exName], [Event.writeExcerpt exName segSubs, Event.trim call], none)
      | none => ([], [], none)
    else ([], [], none)
  | _ => ([], [], none)

/-- The cutting loop over all candidates in array order, threading
len(results); a skipped candidate leaves the counter unchanged. -/
def segLoop (vid : List Char) (allSubs : List (List Char)) (sfile : List Char)
    (ffmpegOk : TrimCall → Bool) :
    List JValue → Nat → List SegRecord × List (List Char) × List Event
  | [], _ => ([], [], [])
  | seg :: rest, k =>
    let step := processSegment vid allSubs sfile ffmpegOk k seg
    match step.2.2 with
    | some r =>
      let t := segLoop vid allSubs sfile ffmpegOk rest (k + 1)
      (r :: t.1, step.1 ++ t.2.1, step.2.1 ++ t.2.2)
    | none =>
      let t := segLoop vid allSubs sfile ffmpegOk rest k
      (t.1, step.1 ++ t.2.1, step.2.1 ++ t.2.2)

/-- End of a run that reached the cutting loop: the temp file (which exists
at this point) is unlinked after the loop, then the empty-results check of
line 489 decides failure. -/
def finishRun (env : ExtractEnv) (vid : List Char) (allSubs : List (List Char))
    (segs : List JValue) (ev0 : List Event) : ExtractOut :=
  let t := segLoop vid allSubs env.subtitle_file env.ffmpegOk segs 0
  let evs := ev0 ++ t.2.2 ++ [Event.unlinkTemp]
  if t.1.isEmpty then ⟨none, false, t.2.1, evs⟩
  else ⟨some t.1, false, t.2.1, evs⟩

/-- extract_segments from src/app.py line 325.  In source order: JSON parse
(a decode error returns with no cleanup), the non-empty-array check, video
id extraction, the subtitle file read (a read error raises before the temp
path is in scope, so no cleanup), then the download phase (skipped when the
temp file already exists; a download failure raises and the handler unlinks
whatever the attempt left), the cutting loop, the cleanup unlink and the
empty-results check. -/
def extract_segments (env : ExtractEnv) : ExtractOut :=
  match env.reply with
  | none => ⟨none, env.tempExists0, [], []⟩
  | some j =>
    match j with
    | JValue.jarr (s0 :: rest) =>
      (match extract_video_id env.url with
       | none => ⟨none, env.tempExists0, [], []⟩
       | some vid =>
         match env.fileContent with
         | none => ⟨none, env.tempExists0, [], []⟩
         | some allSubs =>
           if env.tempExists0 then
             finishRun env vid allSubs (s0 :: rest) []
           else if env.downloadOk then
             finishRun env vid allSubs (s0 :: rest) [Event.download]
           else
             ⟨none, false, [],
              Event.download ::
                (if env.downloadLeftFile then [Event.unlinkTemp] else [])⟩)
    | _ => ⟨none, env.tempExists0, [], []⟩



/-- Proof helper for the normalizer equivalence: merge a pending group into
the head of a grouped list when the keys agree. -/
def mergeHead (tk : Nat) (cur : List (List Char)) :
    List (Nat × List (List Char)) → List (Nat × List (List Char))
  | [] => [(tk, cur)]
  | (u, xs) :: gs =>
    if tk = u then (tk, cur ++ xs) :: gs else (tk, cur) :: ((u, xs) :: gs)

/-- The decoded candidate array of a run, when the reply parses to a
non-empty array (the only shape extract_segments accepts). -/
def replyArr (env : ExtractEnv) : Option (List JValue) :=
  match env.reply with
  | some (JValue.jarr (s :: r)) => some (s :: r)
  | _ => none

/-- Sample video id. -/
def vidAbc : List Char := "abc123".data

/-- Sample timecode 00:00:10. -/
def tc0010 : List Char := "00:00:10".data

/-- Sample timecode 00:00:00. -/
def tc0000 : List Char := "00:00:00".data

/-- Sample timecode 00:00:15. -/
def tc0015 : List Char := "00:00:15".data

/-- Sample ten-character reason. -/
def reasonLong : List Char := "0123456789".data

/-- Sample candidate whose start equals its end, otherwise fully valid. -/
def segC1 : JValue := JValue.jobj
  [(keyStart, JValue.jstr tc0010), (keyEnd, JValue.jstr tc0010),
   (keyImpact, JValue.jint 5), (keyUniq, JValue.jint 5),
   (keyTime, JValue.jint 5), (keyEnt, JValue.jint 5),
   (keyReason, JValue.jstr reasonLong)]

/-- Sample candidate with no fields at all. -/
def badSeg : JValue := JValue.jobj []

/-- Sample transcript file path. -/
def sfileLit : List Char := "downloads/mytitle_subtitles.txt".data

/-- Sample parsed watch URL on the youtube hostname. -/
def urlGood : UrlParts := ⟨some hostWww, pathWatch, [(keyV, [vidAbc])]⟩

/-- Sample foreign hostname. -/
def hostEx : List Char := "example.com".data

/-- Sample parsed watch URL on a foreign hostname. -/
def urlBad : UrlParts := ⟨some hostEx, pathWatch, [(keyV, [vidAbc])]⟩

/-- Sample foreign path. -/
def pathFoo : List Char := "/foo".data

/-- Run environment: valid reply with one equal-endpoints candidate, valid
URL, readable empty transcript, temp file already present, trims succeed. -/
def envC1 : ExtractEnv :=
  ⟨sfileLit, some urlGood, some (JValue.jarr [segC1]), some [], true, true,
    false, fun _ => true⟩

/-- Run environment identical to envC1 except for the foreign hostname. -/
def envC5bad : ExtractEnv :=
  ⟨sfileLit, some urlBad, some (JValue.jarr [segC1]), some [], true, true,
    false, fun _ => true⟩

/-- Run environment with an unparseable reply and a pre-existing temp
file. -/
def envC7 : ExtractEnv :=
  ⟨sfileLit, some urlGood, none, some [], true, true, false, fun _ => true⟩

/-- Sample raw caption text with a zero-width character and a dangling
opening bracket. -/
def txtC3a : List Char := "a \u200B b<".data

/-- Sample raw caption text with a dangling closing bracket. -/
def txtC3b : List Char := "c>".data

/-- The merged cleaned text the normalizer produces from the two samples. -/
def textC3 : List Char := "a  b< c>".data

/-- The bracketed timestamp of second 0. -/
def stamp0 : List Char := "[00:00:00]".data

/-- Caption items at the same second whose cleaned texts amplify the
cleaning defects. -/
def itemsC3 : List RawItem := [⟨0, txtC3a⟩, ⟨0, txtC3b⟩]

/-- Sample word hello. -/
def litHello : List Char := "hello".data

/-- Sample word world. -/
def litWorld : List Char := "world".data

/-- Space join of the two sample words. -/
def litHelloWorld : List Char := "hello world".data

/-- The bracketed timestamp of second 5. -/
def stamp5 : List Char := "[00:00:05]".data

/-- Two caption items at the same second with distinct non-empty texts. -/
def itemsC4 : List RawItem := [⟨5, litHello⟩, ⟨5, litWorld⟩]

/-- Sample non-numeric score string. -/
def strAbc : List Char := "abc".data

/-- Sample transcript line at second 5. -/
def lineC8a : List Char := "[00:00:05] hello".data

/-- Sample transcript line at second 10. -/
def lineC8b : List Char := "[00:00:10] world".data

/-- Sample transcript of two lines. -/
def subsC8 : List (List Char) := [lineC8a, lineC8b]

/-- The record produced by the sample run on envC1 (extracted from the run
output, with a throwaway default on the impossible branches). -/
def recC1 : SegRecord :=
  match (extract_segments envC1).result with
  | some (r :: _) => r
  | _ => ⟨[], [], [], [], [], JValue.null, 0, 0, 0, 0, []⟩

/-- Every digitChar output is an ASCII digit. -/
theorem isDigitChar_digitChar (d : Nat) : isDigitChar (digitChar d) = true := by
  match d with
  | 0 | 1 | 2 | 3 | 4 | 5 | 6 | 7 | 8 => rfl
  | n + 9 => rfl

/-- digitChar decodes to its argument below 10. -/
theorem digitVal_digitChar (d : Nat) (h : d < 10) : digitVal (digitChar d) = d := by
  match d with
  | 0 | 1 | 2 | 3 | 4 | 5 | 6 | 7 | 8 => rfl
  | n + 9 =>
    have hn : n = 0 := by omega
    subst hn
    rfl

/-- Digits are distinct from the colon. -/
theorem isDigitChar_ne_colon {c : Char} (h : isDigitChar c = true) : c ≠ ':' := by
  intro hc
  subst hc
  simp [isDigitChar] at h

/-- Digits are distinct from the minus sign. -/
theorem isDigitChar_ne_minus {c : Char} (h : isDigitChar c = true) : c ≠ '-' := by
  intro hc
  subst hc
  simp [isDigitChar] at h

/-- Digits are distinct from the plus sign. -/
theorem isDigitChar_ne_plus {c : Char} (h : isDigitChar c = true) : c ≠ '+' := by
  intro hc
  subst hc
  simp [isDigitChar] at h

/-- Digits are not whitespace. -/
theorem pyIsSpace_of_digit {c : Char} (h : isDigitChar c = true) :
    pyIsSpace c = false := by
  simp only [isDigitChar, Bool.and_eq_true, decide_eq_true_eq] at h
  simp only [pyIsSpace]
  simp only [Bool.or_eq_false_iff, beq_eq_false_iff_ne, ne_eq,
    Bool.and_eq_false_iff, decide_eq_false_iff_not]
  omega

/-- The colon is not whitespace. -/
theorem pyIsSpace_colon : pyIsSpace ':' = false := by decide

/-- The fuel-structured digit printer decodes to its argument whenever the
fuel exceeds it. -/
theorem listToNat_natDigitsFuel :
    ∀ fuel n, n < fuel → listToNat (natDigitsFuel fuel n) = n := by
  intro fuel
  induction fuel with
  | zero => intro n h; omega
  | succ fuel ih =>
    intro n h
    by_cases h10 : n < 10
    · simp only [natDigitsFuel, if_pos h10, listToNat, List.foldl]
      rw [digitVal_digitChar n h10]
      omega
    · simp only [natDigitsFuel, if_neg h10, listToNat, List.foldl_append, List.foldl]
      have hdiv : n / 10 < fuel := by
        have : n / 10 < n := Nat.div_lt_self (by omega) (by omega)
        omega
      have hrec := ih (n / 10) hdiv
      simp only [listToNat] at hrec
      rw [hrec, digitVal_digitChar (n % 10) (Nat.mod_lt n (by omega))]
      omega

/-- natDigits decodes to its argument. -/
theorem listToNat_natDigits (n : Nat) : listToNat (natDigits n) = n :=
  listToNat_natDigitsFuel (n + 1) n (Nat.lt_succ_self n)

/-- All characters printed by the fuel-structured digit printer are digits. -/
theorem natDigitsFuel_digits :
    ∀ fuel n c, c ∈ natDigitsFuel fuel n → isDigitChar c = true := by
  intro fuel
  induction fuel with
  | zero => intro n c h; simp [natDigitsFuel] at h
  | succ fuel ih =>
    intro n c h
    by_cases h10 : n < 10
    · simp only [natDigitsFuel, if_pos h10, List.mem_singleton] at h
      subst h
      exact isDigitChar_digitChar n
    · simp only [natDigitsFuel, if_neg h10, List.mem_append, List.mem_singleton] at h
      rcases h with h | h
      · exact ih (n / 10) c h
      · subst h
        exact isDigitChar_digitChar (n % 10)

/-- All characters of natDigits are digits. -/
theorem natDigits_digits {n : Nat} {c : Char} (h : c ∈ natDigits n) :
    isDigitChar c = true :=
  natDigitsFuel_digits (n + 1) n c h

/-- The digit printer does not depend on the fuel once the fuel is large
enough. -/
theorem natDigitsFuel_congr :
    ∀ f1 f2 n, n < f1 → n < f2 → natDigitsFuel f1 n = natDigitsFuel f2 n := by
  intro f1
  induction f1 with
  | zero => intro f2 n h1; omega
  | succ f1 ih =>
    intro f2 n h1 h2
    match f2, h2 with
    | f2 + 1, h2 =>
      by_cases h10 : n < 10
      · simp [natDigitsFuel, if_pos h10]
      · simp only [natDigitsFuel, if_neg h10]
        have hlt : n / 10 < n := Nat.div_lt_self (by omega) (by omega)
        rw [ih f2 (n / 10) (by omega) (by omega)]

/-- Below 100, pad2 is the expected pair of explicit digits. -/
theorem pad2_eq_two_digits (n : Nat) (h : n < 100) :
    pad2 n = [digitChar (n / 10), digitChar (n % 10)] := by
  by_cases h10 : n < 10
  · have hd : n / 10 = 0 := by omega
    have hm : n % 10 = n := by omega
    simp only [pad2, if_pos h10, natDigits, natDigitsFuel, if_pos h10, hd, hm]
    rfl
  · simp only [pad2, if_neg h10, natDigits, natDigitsFuel, if_neg h10]
    have hq : n / 10 < 10 := by omega
    have hlt : n / 10 < n := Nat.div_lt_self (by omega) (by omega)
    rw [natDigitsFuel_congr n (n / 10 + 1) (n / 10) (by omega) (by omega)]
    simp [natDigitsFuel, if_pos hq]

/-- pad2 decodes to its argument. -/
theorem listToNat_pad2 (n : Nat) : listToNat (pad2 n) = n := by
  by_cases h10 : n < 10
  · simp only [pad2, if_pos h10, listToNat, List.foldl]
    have : natDigits n = [digitChar n] := by
      simp [natDigits, natDigitsFuel, if_pos h10]
    rw [this]
    simp only [List.foldl]
    rw [show digitVal '0' = 0 from rfl, digitVal_digitChar n h10]
    omega
  · simp only [pad2, if_neg h10]
    exact listToNat_natDigits n

/-- All characters of pad2 are digits. -/
theorem pad2_digits {n : Nat} {c : Char} (h : c ∈ pad2 n) : isDigitChar c = true := by
  by_cases h10 : n < 10
  · simp only [pad2, if_pos h10, List.mem_cons] at h
    rcases h with h | h
    · subst h; rfl
    · exact natDigits_digits h
  · simp only [pad2, if_neg h10] at h
    exact natDigits_digits h

/-- Decoding an explicit two-digit pair. -/
theorem listToNat_pair (a b : Nat) (ha : a < 10) (hb : b < 10) :
    listToNat [digitChar a, digitChar b] = a * 10 + b := by
  simp only [listToNat, List.foldl]
  rw [digitVal_digitChar a ha, digitVal_digitChar b hb]
  omega

/-- dropWhile does nothing when no element satisfies the predicate. -/
theorem dropWhile_eq_self_of_none {p : Char → Bool} :
    ∀ l : List Char, (∀ c ∈ l, p c = false) → l.dropWhile p = l := by
  intro l h
  induction l with
  | nil => rfl
  | cons a l ih =>
    rw [List.dropWhile_cons, h a (by simp)]
    simp

/-- Strings with no whitespace are fixed by strip. -/
theorem pyStrip_eq_self {l : List Char} (h : ∀ c ∈ l, pyIsSpace c = false) :
    pyStrip l = l := by
  unfold pyStrip
  rw [dropWhile_eq_self_of_none l h,
    dropWhile_eq_self_of_none l.reverse (by intro c hc; exact h c (List.mem_reverse.mp hc)),
    List.reverse_reverse]

/-- The head surviving dropWhile does not satisfy the predicate. -/
theorem head?_dropWhile_false {p : Char → Bool} :
    ∀ l : List Char, ∀ c, (l.dropWhile p).head? = some c → p c = false := by
  intro l
  induction l with
  | nil => intro c h; simp [List.dropWhile] at h
  | cons a l ih =>
    intro c h
    rw [List.dropWhile_cons] at h
    by_cases hp : p a = true
    · rw [if_pos hp] at h
      exact ih c h
    · rw [if_neg hp] at h
      simp only [List.head?_cons, Option.some.injEq] at h
      subst h
      exact Bool.not_eq_true _ |>.mp hp

/-- Characters of the stripped string come from the original string. -/
theorem mem_of_mem_pyStrip {l : List Char} {c : Char} (h : c ∈ pyStrip l) : c ∈ l := by
  unfold pyStrip at h
  rw [List.mem_reverse] at h
  have h1 := (List.dropWhile_suffix pyIsSpace).mem h
  rw [List.mem_reverse] at h1
  exact (List.dropWhile_suffix pyIsSpace).mem h1

/-- Strip output has no leading and no trailing whitespace. -/
theorem pyStrip_noEdgeWs (l : List Char) : noEdgeWs (pyStrip l) := by
  constructor
  · intro c h
    unfold pyStrip at h
    rw [List.head?_reverse] at h
    rcases List.dropWhile_suffix (l := (l.dropWhile pyIsSpace).reverse) pyIsSpace with ⟨t, ht⟩
    have hM : ((l.dropWhile pyIsSpace).reverse).getLast? = some c := by
      rw [← ht, List.getLast?_append, h]
      rfl
    rw [List.getLast?_reverse] at hM
    exact head?_dropWhile_false _ c hM
  · intro c h
    unfold pyStrip at h
    rw [List.getLast?_reverse] at h
    exact head?_dropWhile_false _ c h

/-- A string that strips to nothing is all whitespace. -/
theorem all_space_of_pyStrip_nil {l : List Char} (h : pyStrip l = []) :
    ∀ c ∈ l, pyIsSpace c = true := by
  unfold pyStrip at h
  rw [List.reverse_eq_nil_iff, List.dropWhile_eq_nil_iff] at h
  have hall : ∀ c ∈ l.dropWhile pyIsSpace, pyIsSpace c = true := by
    intro c hc
    exact h c (List.mem_reverse.mpr hc)
  have hnil : l.dropWhile pyIsSpace = [] := by
    cases hd : l.dropWhile pyIsSpace with
    | nil => rfl
    | cons a t =>
      have h1 : pyIsSpace a = false := head?_dropWhile_false l a (by rw [hd]; rfl)
      have h2 : pyIsSpace a = true := hall a (by rw [hd]; simp)
      rw [h1] at h2
      exact absurd h2 (by simp)
  rw [List.dropWhile_eq_nil_iff] at hnil
  exact hnil

/-- Cleaned text contains no zero-width and no BOM characters. -/
theorem clean_text_zwFree (l : List Char) : zwFree (clean_text l) := by
  intro c hc
  have hm : c ∈ removeZw (collapseWs (removeTags l)) := mem_of_mem_pyStrip hc
  unfold removeZw at hm
  rcases List.mem_filter.mp hm with ⟨-, hcond⟩
  simp only [Bool.not_eq_true', Bool.or_eq_false_iff, decide_eq_false_iff_not] at hcond
  exact hcond

/-- Cleaned text has no leading and no trailing whitespace. -/
theorem clean_text_noEdgeWs (l : List Char) : noEdgeWs (clean_text l) :=
  pyStrip_noEdgeWs _

/-- getLast? ignores a cons onto a non-empty list. -/
theorem getLast?_cons_ne_nil {a : Char} {l : List Char} (h : l ≠ []) :
    (a :: l).getLast? = l.getLast? := by
  show (([a] ++ l)).getLast? = l.getLast?
  rw [List.getLast?_append]
  rcases List.exists_cons_of_ne_nil h with ⟨x, xs, hx⟩
  subst hx
  cases hg : (x :: xs).getLast? with
  | none => simp [List.getLast?_eq_none_iff] at hg
  | some y => rfl

/-- The space-join of non-empty well-formed pieces is non-empty, free of
zero-width characters and has no edge whitespace. -/
theorem joinSpace_wellformed :
    ∀ ts : List (List Char), ts ≠ [] →
      (∀ t ∈ ts, t ≠ [] ∧ zwFree t ∧ noEdgeWs t) →
      joinSpace ts ≠ [] ∧ zwFree (joinSpace ts) ∧ noEdgeWs (joinSpace ts) := by
  intro ts
  induction ts with
  | nil => intro h; exact absurd rfl h
  | cons t rest ih =>
    intro _ hall
    rcases hall t (by simp) with ⟨htne, htzw, htedge⟩
    cases rest with
    | nil =>
      refine ⟨htne, htzw, htedge⟩
    | cons t2 rest2 =>
      have hrest := ih (by simp) (by intro u hu; exact hall u (by simp [hu]))
      rcases hrest with ⟨hjne, hjzw, hjedge⟩
      have hshape : joinSpace (t :: t2 :: rest2) = t ++ ' ' :: joinSpace (t2 :: rest2) := rfl
      refine ⟨?_, ?_, ?_, ?_⟩
      · rw [hshape]
        intro hnil
        exact absurd (List.append_eq_nil.mp hnil).1 htne
      · rw [hshape]
        intro c hc
        rcases List.mem_append.mp hc with hc | hc
        · exact htzw c hc
        · rcases List.mem_cons.mp hc with hc | hc
          · subst hc; exact ⟨by decide, by decide⟩
          · exact hjzw c hc
      · intro c hc
        rw [hshape, List.head?_append] at hc
        cases hh : t.head? with
        | none => simp [List.head?_eq_none_iff] at hh; exact absurd hh htne
        | some y =>
          rw [hh] at hc
          have hyc : some y = some c := hc
          have hyc2 : y = c := by injection hyc
          subst hyc2
          exact htedge.1 y hh
      · intro c hc
        rw [hshape, List.getLast?_append] at hc
        have h1 : (' ' :: joinSpace (t2 :: rest2)).getLast? = (joinSpace (t2 :: rest2)).getLast? :=
          getLast?_cons_ne_nil hjne
        rw [h1] at hc
        cases hg : (joinSpace (t2 :: rest2)).getLast? with
        | none => simp [List.getLast?_eq_none_iff] at hg; exact absurd hg hjne
        | some y =>
          rw [hg] at hc
          have : y = c := by injection hc
          subst this
          exact hjedge.2 y hg

/-- Splitting at the first occurrence of a separator is unambiguous when
neither prefix contains it. -/
theorem sep_split_unique {sep : Char} :
    ∀ (xs1 ys1 xs2 ys2 : List Char), (∀ c ∈ xs1, c ≠ sep) → (∀ c ∈ xs2, c ≠ sep) →
      xs1 ++ sep :: ys1 = xs2 ++ sep :: ys2 → xs1 = xs2 ∧ ys1 = ys2 := by
  intro xs1
  induction xs1 with
  | nil =>
    intro ys1 xs2 ys2 _ h2 heq
    cases xs2 with
    | nil =>
      simp only [List.nil_append, List.cons.injEq] at heq
      exact ⟨rfl, heq.2⟩
    | cons x2 t2 =>
      simp only [List.nil_append, List.cons_append, List.cons.injEq] at heq
      exact absurd heq.1.symm (h2 x2 (by simp))
  | cons x1 t1 ih =>
    intro ys1 xs2 ys2 h1 h2 heq
    cases xs2 with
    | nil =>
      simp only [List.cons_append, List.nil_append, List.cons.injEq] at heq
      exact absurd heq.1 (h1 x1 (by simp))
    | cons x2 t2 =>
      simp only [List.cons_append, List.cons.injEq] at heq
      rcases heq with ⟨hx, ht⟩
      rcases ih ys1 t2 ys2 (fun c hc => h1 c (by simp [hc])) (fun c hc => h2 c (by simp [hc])) ht with
        ⟨hteq, hyeq⟩
      exact ⟨by rw [hx, hteq], hyeq⟩

/-- No character of pad2 is a colon. -/
theorem pad2_ne_colon (n : Nat) : ∀ c ∈ pad2 n, c ≠ ':' :=
  fun c hc => isDigitChar_ne_colon (pad2_digits hc)

/-- format_time is injective: distinct second counts give distinct timecode
strings. -/
theorem format_time_inj {a b : Nat} (h : format_time a = format_time b) : a = b := by
  unfold format_time at h
  simp only [List.cons.injEq, true_and] at h
  rcases sep_split_unique _ _ _ _ (pad2_ne_colon (a / 3600)) (pad2_ne_colon (b / 3600)) h with
    ⟨hh, hrest⟩
  rcases sep_split_unique _ _ _ _ (pad2_ne_colon (a % 3600 / 60)) (pad2_ne_colon (b % 3600 / 60))
      hrest with ⟨hm, hrest2⟩
  have hs : pad2 (a % 60) = pad2 (b % 60) := List.append_cancel_right hrest2
  have e1 : a / 3600 = b / 3600 := by
    rw [← listToNat_pad2 (a / 3600), ← listToNat_pad2 (b / 3600), hh]
  have e2 : a % 3600 / 60 = b % 3600 / 60 := by
    rw [← listToNat_pad2 (a % 3600 / 60), ← listToNat_pad2 (b % 3600 / 60), hm]
  have e3 : a % 60 = b % 60 := by
    rw [← listToNat_pad2 (a % 60), ← listToNat_pad2 (b % 60), hs]
  omega

/-- Unfolding of the normalizer loop at the end of input with a pending
line. -/
theorem normalizeLoop_nil_some (ct : List Char) (cur : List (List Char)) :
    normalizeLoop [] (some ct) cur = if cur = [] then [] else [(ct, joinSpace cur)] := rfl

/-- Unfolding of the normalizer loop at a cons with a pending line. -/
theorem normalizeLoop_cons_some (item : RawItem) (rest : List RawItem)
    (ct : List Char) (currentText : List (List Char)) :
    normalizeLoop (item :: rest) (some ct) currentText =
      if clean_text item.text = [] then normalizeLoop rest (some ct) currentText
      else if ct = format_time item.start then
        normalizeLoop rest (some ct) (currentText ++ [clean_text item.text])
      else
        (if currentText = [] then [] else [(ct, joinSpace currentText)]) ++
          normalizeLoop rest (some (format_time item.start)) [clean_text item.text] := rfl

/-- Unfolding of the normalizer loop at a cons with no pending line. -/
theorem normalizeLoop_cons_none (item : RawItem) (rest : List RawItem)
    (currentText : List (List Char)) :
    normalizeLoop (item :: rest) none currentText =
      if clean_text item.text = [] then normalizeLoop rest none currentText
      else normalizeLoop rest (some (format_time item.start)) [clean_text item.text] := rfl

/-- Unfolding of cleanedItems at a cons with empty cleaned text. -/
theorem cleanedItems_cons_empty {item : RawItem} (rest : List RawItem)
    (h : clean_text item.text = []) :
    cleanedItems (item :: rest) = cleanedItems rest := by
  simp only [cleanedItems, List.filterMap_cons, h]
  simp

/-- Unfolding of cleanedItems at a cons with non-empty cleaned text. -/
theorem cleanedItems_cons_ne {item : RawItem} (rest : List RawItem)
    (h : clean_text item.text ≠ []) :
    cleanedItems (item :: rest) =
      (item.start, clean_text item.text) :: cleanedItems rest := by
  simp only [cleanedItems, List.filterMap_cons]
  rw [if_neg h]

/-- Merging a pending singleton group is the same as grouping with the item
put in front. -/
theorem mergeHead_single (tk : Nat) (x : List Char) (cs : List (Nat × List Char)) :
    mergeHead tk [x] (groupConsec cs) = groupConsec ((tk, x) :: cs) := by
  cases hg : groupConsec cs with
  | nil => simp [mergeHead, groupConsec, hg]
  | cons g gs =>
    rcases g with ⟨u, xs⟩
    by_cases hu : tk = u
    · simp [mergeHead, groupConsec, hg, hu]
    · simp [mergeHead, groupConsec, hg, hu]

/-- Growing the pending group by one text commutes with grouping the text as
a front item. -/
theorem mergeHead_snoc (tk : Nat) (x : List Char) (cur : List (List Char))
    (cs : List (Nat × List Char)) :
    mergeHead tk (cur ++ [x]) (groupConsec cs) =
      mergeHead tk cur (groupConsec ((tk, x) :: cs)) := by
  cases hg : groupConsec cs with
  | nil => simp [mergeHead, groupConsec, hg]
  | cons g gs =>
    rcases g with ⟨u, xs⟩
    by_cases hu : tk = u
    · subst hu
      simp [mergeHead, groupConsec, hg]
    · simp [mergeHead, groupConsec, hg, hu]

/-- Grouping a cons always yields a head group with the key of the first
item. -/
theorem groupConsec_cons_shape (t0 : Nat) (x : List Char) (cs : List (Nat × List Char)) :
    ∃ zs gs, groupConsec ((t0, x) :: cs) = (t0, zs) :: gs := by
  cases hg : groupConsec cs with
  | nil => exact ⟨[x], [], by simp [groupConsec, hg]⟩
  | cons g gs =>
    rcases g with ⟨u, xs⟩
    by_cases hu : t0 = u
    · exact ⟨x :: xs, gs, by simp [groupConsec, hg, hu]⟩
    · exact ⟨[x], (u, xs) :: gs, by simp [groupConsec, hg, hu]⟩

/-- The normalizer loop with a pending line renders the grouped cleaned
items with the pending group merged in front. -/
theorem normalizeLoop_pending :
    ∀ (items : List RawItem) (tk : Nat) (cur : List (List Char)), cur ≠ [] →
      normalizeLoop items (some (format_time tk)) cur =
        (mergeHead tk cur (groupConsec (cleanedItems items))).map
          (fun g => (format_time g.1, joinSpace g.2)) := by
  intro items
  induction items with
  | nil =>
    intro tk cur hcur
    rw [normalizeLoop_nil_some, if_neg hcur]
    simp [cleanedItems, groupConsec, mergeHead]
  | cons item rest ih =>
    intro tk cur hcur
    rw [normalizeLoop_cons_some]
    by_cases hx : clean_text item.text = []
    · rw [if_pos hx, cleanedItems_cons_empty rest hx]
      exact ih tk cur hcur
    · rw [if_neg hx, cleanedItems_cons_ne rest hx]
      by_cases heq : tk = item.start
      · subst heq
        rw [if_pos rfl]
        rw [ih item.start (cur ++ [clean_text item.text]) (by simp)]
        rw [mergeHead_snoc]
      · have hne : format_time tk ≠ format_time item.start := by
          intro hft
          exact heq (format_time_inj hft)
        rw [if_neg hne, if_neg hcur]
        rw [ih item.start [clean_text item.text] (by simp)]
        rw [mergeHead_single]
        rcases groupConsec_cons_shape item.start (clean_text item.text)
          (cleanedItems rest) with ⟨zs, gs, hshape⟩
        rw [hshape]
        have hmh : mergeHead tk cur ((item.start, zs) :: gs) =
            (tk, cur) :: ((item.start, zs) :: gs) := by
          simp [mergeHead, heq]
        rw [hmh]
        simp

/-- The transcript-API normalizer loop computes exactly the grouped
specification rendering. -/
theorem normalizePairs_eq_spec (items : List RawItem) :
    normalizePairs items = normalizeSpec items := by
  unfold normalizePairs normalizeSpec
  induction items with
  | nil => rfl
  | cons item rest ih =>
    rw [normalizeLoop_cons_none]
    by_cases hx : clean_text item.text = []
    · rw [if_pos hx, cleanedItems_cons_empty rest hx]
      exact ih
    · rw [if_neg hx, cleanedItems_cons_ne rest hx]
      rw [normalizeLoop_pending rest item.start [clean_text item.text] (by simp)]
      rw [mergeHead_single]

/-- Every text inside a group comes from a cleaned item with the key of the
group, and groups are never empty. -/
theorem groupConsec_mem :
    ∀ (l : List (Nat × List Char)) (t : Nat) (xs : List (List Char)),
      (t, xs) ∈ groupConsec l → xs ≠ [] ∧ ∀ x ∈ xs, (t, x) ∈ l := by
  intro l
  induction l with
  | nil => intro t xs h; simp [groupConsec] at h
  | cons p rest ih =>
    rcases p with ⟨t0, x0⟩
    intro t xs h
    cases hg : groupConsec rest with
    | nil =>
      rw [groupConsec, hg] at h
      simp only [List.mem_singleton, Prod.mk.injEq] at h
      rcases h with ⟨ht, hxs⟩
      subst ht
      subst hxs
      exact ⟨by simp, by intro x hx; simp only [List.mem_singleton] at hx; simp [hx]⟩
    | cons g gs =>
      rcases g with ⟨u, ys⟩
      have hgc : groupConsec ((t0, x0) :: rest) =
          (if t0 = u then (t0, x0 :: ys) :: gs else (t0, [x0]) :: ((u, ys) :: gs)) := by
        rw [groupConsec, hg]
      by_cases hu : t0 = u
      · rw [hgc, if_pos hu] at h
        rcases List.mem_cons.mp h with h | h
        · rcases Prod.mk.injEq .. ▸ h with ⟨ht, hxs⟩
          subst ht
          subst hxs
          refine ⟨by simp, ?_⟩
          intro x hx
          rcases List.mem_cons.mp hx with hx | hx
          · simp [hx]
          · have hmem : (u, ys) ∈ groupConsec rest := by rw [hg]; simp
            have := (ih u ys hmem).2 x hx
            rw [hu]
            exact List.mem_cons_of_mem _ this
        · have hmem : (t, xs) ∈ groupConsec rest := by rw [hg]; simp [h]
          rcases ih t xs hmem with ⟨hne, hall⟩
          exact ⟨hne, fun x hx => List.mem_cons_of_mem _ (hall x hx)⟩
      · rw [hgc, if_neg hu] at h
        rcases List.mem_cons.mp h with h | h
        · rcases Prod.mk.injEq .. ▸ h with ⟨ht, hxs⟩
          subst ht
          subst hxs
          exact ⟨by simp, by intro x hx; simp only [List.mem_singleton] at hx; simp [hx]⟩
        · have hmem : (t, xs) ∈ groupConsec rest := by rw [hg]; exact h
          rcases ih t xs hmem with ⟨hne, hall⟩
          exact ⟨hne, fun x hx => List.mem_cons_of_mem _ (hall x hx)⟩

/-- Every cleaned item text is a non-empty clean_text output. -/
theorem cleanedItems_mem {items : List RawItem} {t : Nat} {x : List Char}
    (h : (t, x) ∈ cleanedItems items) :
    x ≠ [] ∧ ∃ it ∈ items, clean_text it.text = x := by
  unfold cleanedItems at h
  rcases List.mem_filterMap.mp h with ⟨it, hit, heq⟩
  by_cases hx : clean_text it.text = []
  · simp only [hx, if_pos rfl] at heq
    exact absurd heq (by simp)
  · simp only [if_neg hx] at heq
    rcases Option.some.injEq .. ▸ heq with heq2
    have hpair : (it.start, clean_text it.text) = (t, x) := by injection heq
    rcases Prod.mk.injEq .. ▸ hpair with ⟨-, hx2⟩
    exact ⟨by rw [← hx2]; exact hx, ⟨it, hit, hx2⟩⟩

/-- C3 (amended): every TimedLine text produced by either normalizer branch
is non-empty, contains no zero-width or BOM character, and has no leading or
trailing whitespace.  (The no-whitespace-run and no-markup parts of the
original claim fail, see the counterexample.) -/
theorem c3_timedline_text_wellformed (items : List RawItem)
    (pr : List Char × List Char)
    (h : pr ∈ normalizePairs items ∨ pr ∈ normalize_yt_dlp items) :
    pr.2 ≠ [] ∧ zwFree pr.2 ∧ noEdgeWs pr.2 := by
  rcases h with h | h
  · rw [normalizePairs_eq_spec] at h
    unfold normalizeSpec at h
    rcases List.mem_map.mp h with ⟨⟨t, xs⟩, hg, hpr⟩
    rcases groupConsec_mem (cleanedItems items) t xs hg with ⟨hne, hall⟩
    have hjoin := joinSpace_wellformed xs hne (by
      intro u hu
      rcases cleanedItems_mem (hall u hu) with ⟨hune, it, hit, heq⟩
      subst heq
      exact ⟨hune, clean_text_zwFree it.text, clean_text_noEdgeWs it.text⟩)
    rw [← hpr]
    exact hjoin
  · unfold normalize_yt_dlp at h
    rcases List.mem_filterMap.mp h with ⟨it, hit, heq⟩
    by_cases hx : clean_text it.text = []
    · simp only [hx, if_pos rfl] at heq
      exact absurd heq (by simp)
    · simp only [if_neg hx] at heq
      have hpair : (format_time it.start, clean_text it.text) = pr := by injection heq
      rw [← hpair]
      exact ⟨hx, clean_text_zwFree it.text, clean_text_noEdgeWs it.text⟩

/-- Witness for c3_timedline_text_wellformed at concrete caption items. -/
theorem c3_timedline_text_wellformed_witness :
    litHelloWorld ≠ [] ∧ zwFree litHelloWorld ∧ noEdgeWs litHelloWorld :=
  c3_timedline_text_wellformed itemsC4 (stamp5, litHelloWorld) (Or.inl (by decide))

/-- C3 counterexample: the raw texts a zero-width-space b-open-bracket and
c-close-bracket at the same second produce the merged TimedLine text with a
run of two spaces and a tag-shaped substring, refuting the
collapsed-whitespace and markup-free parts of the claim. -/
theorem c3_counterexample :
    normalizePairs itemsC3 = [(stamp0, textC3)] ∧ hasDoubleWs textC3 = true ∧
      hasTag textC3 = true := by decide

/-- C4 (amended): the transcript-API normalizer branch is exactly the
claimed behaviour — drop empty-cleaned items, merge consecutive items
sharing the same truncated-second timestamp into one line joining the
cleaned texts with single spaces in input order, flush on timestamp change
and at end of input. -/
theorem c4_api_normalizer_merges (items : List RawItem) :
    normalizePairs items = normalizeSpec items :=
  normalizePairs_eq_spec items

/-- C4 counterexample: the yt-dlp fallback branch does not merge — two items
at the same truncated second yield two separate lines, where the claimed
behaviour yields exactly one merged line. -/
theorem c4_counterexample :
    normalize_yt_dlp itemsC4 = [(stamp5, litHello), (stamp5, litWorld)] ∧
      normalizeSpec itemsC4 = [(stamp5, litHelloWorld)] := by decide

/-- The flexible pattern accepts a canonical two-digit colon-separated
timecode and returns its three groups. -/
theorem timePatternMatch_canonical (a b c d e f : Char)
    (ha : isDigitChar a = true) (hb : isDigitChar b = true)
    (hc : isDigitChar c = true) (hd : isDigitChar d = true)
    (he : isDigitChar e = true) (hf : isDigitChar f = true) :
    timePatternMatch [a, b, ':', c, d, ':', e, f] = some ([a, b], [c, d], [e, f]) := by
  simp [timePatternMatch, matchTail, matchG2, matchTail2, matchG3, ha, hb, hc, hd, he, hf]

/-- Splitting a separator-free string gives that string back as the single
field. -/
theorem splitOnChar_no_sep {sep : Char} :
    ∀ l : List Char, (∀ c ∈ l, c ≠ sep) → splitOnChar sep l = [l] := by
  intro l
  induction l with
  | nil => intro h; rfl
  | cons c rest ih =>
    intro h
    have hr := ih (fun x hx => h x (by simp [hx]))
    simp only [splitOnChar, hr, if_neg (h c (by simp))]

/-- Splitting peels off a separator-free prefix as the first field. -/
theorem splitOnChar_append {sep : Char} :
    ∀ xs ys : List Char, (∀ c ∈ xs, c ≠ sep) →
      splitOnChar sep (xs ++ sep :: ys) = xs :: splitOnChar sep ys := by
  intro xs
  induction xs with
  | nil =>
    intro ys h
    simp [splitOnChar]
  | cons x xs ih =>
    intro ys h
    have hr := ih ys (fun c hc => h c (by simp [hc]))
    simp only [List.cons_append, splitOnChar, if_neg (h x (by simp))]
    have hr2 : splitOnChar sep (xs.append (sep :: ys)) = xs :: splitOnChar sep ys := hr
    rw [hr2]

/-- int() on a non-empty all-digit string returns its decimal value. -/
theorem pyParseInt_digits {l : List Char} (hne : l ≠ [])
    (hall : ∀ c ∈ l, isDigitChar c = true) :
    pyParseInt l = some ((listToNat l : Int)) := by
  have hs : pyStrip l = l := pyStrip_eq_self (fun c hc => pyIsSpace_of_digit (hall c hc))
  cases l with
  | nil => exact absurd rfl hne
  | cons c ds =>
    simp only [pyParseInt, hs]
    rw [if_neg (isDigitChar_ne_minus (hall c (by simp))),
      if_neg (isDigitChar_ne_plus (hall c (by simp))),
      if_pos (List.all_eq_true.mpr (fun x hx => hall x hx))]

/-- natDigits is never empty. -/
theorem natDigits_ne_nil (n : Nat) : natDigits n ≠ [] := by
  unfold natDigits natDigitsFuel
  by_cases h10 : n < 10
  · simp [if_pos h10]
  · simp only [if_neg h10]
    intro h
    exact absurd (List.append_eq_nil.mp h).2 (by simp)

/-- pad2 is never empty. -/
theorem pad2_ne_nil (n : Nat) : pad2 n ≠ [] := by
  unfold pad2
  by_cases h10 : n < 10
  · simp [if_pos h10]
  · rw [if_neg h10]
    exact natDigits_ne_nil n

/-- time_to_seconds on a canonically rendered timecode. -/
theorem time_to_seconds_norm (hv : Nat) (x y : List Char)
    (hx : x ≠ []) (hxd : ∀ c ∈ x, isDigitChar c = true)
    (hy : y ≠ []) (hyd : ∀ c ∈ y, isDigitChar c = true) :
    time_to_seconds (pad2 hv ++ ':' :: (x ++ ':' :: y)) =
      some ((hv : Int) * 3600 + (listToNat x : Int) * 60 + (listToNat y : Int)) := by
  unfold time_to_seconds
  rw [splitOnChar_append _ _ (pad2_ne_colon hv),
    splitOnChar_append _ _ (fun c hc => isDigitChar_ne_colon (hxd c hc)),
    splitOnChar_no_sep _ (fun c hc => isDigitChar_ne_colon (hyd c hc))]
  simp only [pyParseInt_digits (pad2_ne_nil hv) (fun c hc => pad2_digits hc),
    pyParseInt_digits hx hxd, pyParseInt_digits hy hyd, listToNat_pad2]

/-- C2 (amended): for every second count below one hundred hours, parsing
the bracket-stripped output of format_time yields the count back.  (Above
that bound the claim fails: format_time prints a three-digit hour which the
1-2 digit hour pattern rejects, see the counterexample.) -/
theorem c2_parse_format_roundtrip (s : Nat) (h : s < 360000) :
    (parse_timecode (stripBrackets (format_time s))).map Prod.snd = some ((s : Int)) := by
  have hh : s / 3600 < 100 := by omega
  have hstrip : stripBrackets (format_time s) =
      digitChar (s / 3600 / 10) :: digitChar (s / 3600 % 10) :: ':' ::
      digitChar (s % 3600 / 60 / 10) :: digitChar (s % 3600 / 60 % 10) :: ':' ::
      digitChar (s % 60 / 10) :: digitChar (s % 60 % 10) :: [] := by
    unfold format_time stripBrackets
    have hsh : (('[' :: (pad2 (s / 3600) ++
        ':' :: (pad2 (s % 3600 / 60) ++ ':' :: (pad2 (s % 60) ++ [']'])))).drop 1) =
        pad2 (s / 3600) ++ ':' :: (pad2 (s % 3600 / 60) ++ ':' :: (pad2 (s % 60) ++ [']'])) := rfl
    rw [hsh]
    have hcat : pad2 (s / 3600) ++ ':' :: (pad2 (s % 3600 / 60) ++ ':' :: (pad2 (s % 60) ++ [']'])) =
        (pad2 (s / 3600) ++ ':' :: (pad2 (s % 3600 / 60) ++ ':' :: pad2 (s % 60))) ++ [']'] := by
      simp
    rw [hcat, List.dropLast_concat, pad2_eq_two_digits _ hh, pad2_eq_two_digits _ (by omega),
      pad2_eq_two_digits _ (by omega)]
    simp
  have hnospace : ∀ c ∈ digitChar (s / 3600 / 10) :: digitChar (s / 3600 % 10) :: ':' ::
      digitChar (s % 3600 / 60 / 10) :: digitChar (s % 3600 / 60 % 10) :: ':' ::
      digitChar (s % 60 / 10) :: digitChar (s % 60 % 10) :: [], pyIsSpace c = false := by
    intro c hcm
    simp only [List.mem_cons, List.not_mem_nil, or_false] at hcm
    rcases hcm with h1 | h1 | h1 | h1 | h1 | h1 | h1 | h1 <;> subst h1 <;>
      first
        | exact pyIsSpace_of_digit (isDigitChar_digitChar _)
        | exact pyIsSpace_colon
  have eA : listToNat [digitChar (s / 3600 / 10), digitChar (s / 3600 % 10)] = s / 3600 := by
    rw [listToNat_pair _ _ (by omega) (by omega)]
    omega
  have eT : time_to_seconds (pad2 (s / 3600) ++ ':' ::
      ([digitChar (s % 3600 / 60 / 10), digitChar (s % 3600 / 60 % 10)] ++ ':' ::
        [digitChar (s % 60 / 10), digitChar (s % 60 % 10)])) =
      some ((s : Int)) := by
    rw [time_to_seconds_norm (s / 3600) _ _ (by simp)
      (by intro c hcm
          simp only [List.mem_cons, List.not_mem_nil, or_false] at hcm
          rcases hcm with h1 | h1 <;> subst h1 <;> exact isDigitChar_digitChar _)
      (by simp)
      (by intro c hcm
          simp only [List.mem_cons, List.not_mem_nil, or_false] at hcm
          rcases hcm with h1 | h1 <;> subst h1 <;> exact isDigitChar_digitChar _)]
    rw [listToNat_pair _ _ (by omega) (by omega), listToNat_pair _ _ (by omega) (by omega)]
    congr 1
    push_cast
    omega
  unfold parse_timecode
  rw [hstrip, pyStrip_eq_self hnospace]
  simp only [timePatternMatch_canonical _ _ _ _ _ _ (isDigitChar_digitChar _)
    (isDigitChar_digitChar _) (isDigitChar_digitChar _) (isDigitChar_digitChar _)
    (isDigitChar_digitChar _) (isDigitChar_digitChar _)]
  simp only [normTime, eA, eT]
  rfl

/-- C2 counterexample: at one hundred hours (360000 seconds) the format
prints a three-digit hour, which the flexible 1-2 digit hour pattern
rejects, so the roundtrip fails for this non-negative second count. -/
theorem c2_counterexample :
    parse_timecode (stripBrackets (format_time 360000)) = none := by decide

/-- Witness for c2_parse_format_roundtrip at a concrete second count. -/
theorem c2_parse_format_roundtrip_witness :
    3725 < 360000 ∧
      (parse_timecode (stripBrackets (format_time 3725))).map Prod.snd =
        some ((3725 : Int)) :=
  ⟨by decide, c2_parse_format_roundtrip 3725 (by decide)⟩


/-- Every float parsed from a string has a positive denominator. -/
theorem pyFloatOfString_den_pos {l : List Char} {q : PyNum}
    (h : pyFloatOfString l = some q) : 0 < q.den := by
  unfold pyFloatOfString at h
  rcases hm : parseMantissa
      (match pyStrip l with
        | '-' :: r => ((-1 : Int), r)
        | '+' :: r => ((1 : Int), r)
        | r => ((1 : Int), r)).2 with - | ⟨mn, k, rest⟩
  · simp only [hm] at h
    exact Option.noConfusion h
  · simp only [hm] at h
    rcases he : parseExponent rest with - | e
    · simp only [he] at h
      exact Option.noConfusion h
    · simp only [he] at h
      by_cases h0 : 0 ≤ e
      · rw [if_pos h0] at h
        have hq : (10 : Nat) ^ k = q.den := by
          injection h with h2
          rw [← h2]
        rw [← hq]
        positivity
      · rw [if_neg h0] at h
        have hq : (10 : Nat) ^ k * 10 ^ (-e).toNat = q.den := by
          injection h with h2
          rw [← h2]
        rw [← hq]
        positivity

/-- Every successfully coerced score value has a positive denominator. -/
theorem pyFloat_den_pos {v : JValue} {q : PyNum} (h : pyFloat v = some q) :
    0 < q.den := by
  cases v with
  | jint n =>
    have hq : q = ⟨n, 1⟩ := by injection h with h2; exact h2.symm
    rw [hq]
    exact Nat.one_pos
  | jnum r =>
    have hq : q = ⟨r.num, r.den⟩ := by injection h with h2; exact h2.symm
    rw [hq]
    exact r.pos
  | jbool b =>
    have hq : q = ⟨if b then 1 else 0, 1⟩ := by injection h with h2; exact h2.symm
    rw [hq]
    exact Nat.one_pos
  | jstr s => exact pyFloatOfString_den_pos h
  | null => exact absurd h (by simp [pyFloat])
  | jarr xs => exact absurd h (by simp [pyFloat])
  | jobj fs => exact absurd h (by simp [pyFloat])

/-- The rational value of the PyNum one. -/
theorem pnVal_one : pnVal ⟨1, 1⟩ = 1 := by
  simp [pnVal]

/-- The rational value of the PyNum ten. -/
theorem pnVal_ten : pnVal ⟨10, 1⟩ = 10 := by
  simp [pnVal]

/-- The boolean comparison agrees with the rational order. -/
theorem pnLeB_iff {a b : PyNum} (ha : 0 < a.den) (hb : 0 < b.den) :
    pnLeB a b = true ↔ pnVal a ≤ pnVal b := by
  unfold pnLeB pnVal
  rw [decide_eq_true_eq]
  rw [div_le_div_iff (by exact_mod_cast ha) (by exact_mod_cast hb)]
  constructor
  · intro h
    exact_mod_cast h
  · intro h
    exact_mod_cast h

/-- The strict boolean comparison agrees with the rational order. -/
theorem pnLtB_iff {a b : PyNum} (ha : 0 < a.den) (hb : 0 < b.den) :
    pnLtB a b = true ↔ pnVal a < pnVal b := by
  unfold pnLtB pnVal
  rw [decide_eq_true_eq]
  rw [div_lt_div_iff (by exact_mod_cast ha) (by exact_mod_cast hb)]
  constructor
  · intro h
    exact_mod_cast h
  · intro h
    exact_mod_cast h

/-- The range check and clamp of the score loop compute exactly the clamp of
the rational value into the interval from one to ten. -/
theorem clamp_spec (q : PyNum) (hd : 0 < q.den) :
    0 < (if pnLeB ⟨1, 1⟩ q && pnLeB q ⟨10, 1⟩ then q
      else pnMax ⟨1, 1⟩ (pnMin ⟨10, 1⟩ q)).den ∧
    pnVal (if pnLeB ⟨1, 1⟩ q && pnLeB q ⟨10, 1⟩ then q
      else pnMax ⟨1, 1⟩ (pnMin ⟨10, 1⟩ q)) = max 1 (min 10 (pnVal q)) := by
  have h1 : (0 : Nat) < (PyNum.mk 1 1).den := Nat.one_pos
  have h10 : (0 : Nat) < (PyNum.mk 10 1).den := Nat.one_pos
  by_cases hin : (pnLeB ⟨1, 1⟩ q && pnLeB q ⟨10, 1⟩) = true
  · rw [if_pos hin]
    rcases Bool.and_eq_true .. ▸ hin with ⟨hle1, hle10⟩
    have hv1 : (1 : ℚ) ≤ pnVal q := pnVal_one ▸ (pnLeB_iff h1 hd).mp hle1
    have hv10 : pnVal q ≤ 10 := pnVal_ten ▸ (pnLeB_iff hd h10).mp hle10
    refine ⟨hd, ?_⟩
    rw [min_eq_right hv10, max_eq_right hv1]
  · rw [if_neg hin]
    unfold pnMin pnMax
    by_cases hlt10 : pnLtB q ⟨10, 1⟩ = true
    · rw [if_pos hlt10]
      have hv10 : pnVal q < 10 := pnVal_ten ▸ (pnLtB_iff hd h10).mp hlt10
      rw [min_eq_right (le_of_lt hv10)]
      by_cases h1q : pnLtB ⟨1, 1⟩ q = true
      · rw [if_pos h1q]
        have hv1 : (1 : ℚ) < pnVal q := pnVal_one ▸ (pnLtB_iff h1 hd).mp h1q
        exact ⟨hd, (max_eq_right (le_of_lt hv1)).symm⟩
      · rw [if_neg h1q]
        have hv1 : ¬ (1 : ℚ) < pnVal q := by
          intro hcon
          exact h1q ((pnLtB_iff h1 hd).mpr (pnVal_one ▸ hcon))
        push_neg at hv1
        exact ⟨h1, by rw [pnVal_one, max_eq_left hv1]⟩
    · rw [if_neg hlt10]
      have hv10 : ¬ pnVal q < 10 := by
        intro hcon
        exact hlt10 ((pnLtB_iff hd h10).mpr (pnVal_ten ▸ hcon))
      push_neg at hv10
      rw [min_eq_left hv10]
      rw [if_pos (by decide : pnLtB ⟨1, 1⟩ ⟨10, 1⟩ = true)]
      exact ⟨h10, by rw [pnVal_ten, max_eq_right (by norm_num)]⟩

/-- Banker rounding of a value clamped into the interval from one to ten
stays in the integer interval and lands within one half of the value. -/
theorem pyRoundInt_spec (q : PyNum) (hd : 0 < q.den)
    (h1 : (1 : ℚ) ≤ pnVal q) (h10 : pnVal q ≤ 10) :
    1 ≤ pyRoundInt q ∧ pyRoundInt q ≤ 10 ∧ |pnVal q - (pyRoundInt q : ℚ)| ≤ 1 / 2 := by
  rcases q with ⟨n, d⟩
  simp only at hd h1 h10 ⊢
  have hdz : (d : Int) ≠ 0 := by exact_mod_cast Nat.pos_iff_ne_zero.mp hd
  have hdq : (0 : ℚ) < (d : ℚ) := by exact_mod_cast hd
  set f : Int := n / (d : Int) with hfdef
  set r : Int := n % (d : Int) with hrdef
  have hr0 : 0 ≤ r := Int.emod_nonneg n hdz
  have hrd : r < (d : Int) := Int.emod_lt_of_pos n (by exact_mod_cast hd)
  have hnd : (d : Int) * f + r = n := Int.ediv_add_emod n d
  have hsub : n - f * (d : Int) = r := by linear_combination -hnd
  have hro : pyRoundInt ⟨n, d⟩ =
      (if 2 * r < (d : Int) then f else if (d : Int) < 2 * r then f + 1
        else if f % 2 = 0 then f else f + 1) := by
    simp only [pyRoundInt, ← hfdef, hsub]
  have hnq : (n : ℚ) = (d : ℚ) * (f : ℚ) + (r : ℚ) := by exact_mod_cast hnd.symm
  have hv : pnVal ⟨n, d⟩ = (f : ℚ) + (r : ℚ) / (d : ℚ) := by
    unfold pnVal
    rw [hnq]
    field_simp
    ring
  set w : ℚ := (r : ℚ) / (d : ℚ) with hwdef
  have hw0 : 0 ≤ w := div_nonneg (by exact_mod_cast hr0) (le_of_lt hdq)
  have hw1 : w < 1 := (div_lt_one hdq).mpr (by exact_mod_cast hrd)
  rw [hv] at h1 h10 ⊢
  rw [hro]
  by_cases hlt : 2 * r < (d : Int)
  · rw [if_pos hlt]
    have hltq : 2 * (r : ℚ) < (d : ℚ) := by exact_mod_cast hlt
    have hwh : w < 1 / 2 := by
      rw [hwdef, div_lt_div_iff hdq (by norm_num)]
      linarith
    have hf1 : 1 ≤ f := by
      have : (1 : ℚ) - w ≤ (f : ℚ) := by linarith
      have hfpos : (0 : ℚ) < (f : ℚ) := by linarith
      have : (0 : Int) < f := by exact_mod_cast hfpos
      omega
    have hf10 : f ≤ 10 := by
      have : (f : ℚ) ≤ 10 := by linarith
      exact_mod_cast this
    refine ⟨hf1, hf10, ?_⟩
    have : (f : ℚ) + w - f = w := by ring
    rw [this, abs_of_nonneg hw0]
    linarith
  · rw [if_neg hlt]
    push_neg at hlt
    by_cases hgt : (d : Int) < 2 * r
    · rw [if_pos hgt]
      have hgtq : (d : ℚ) < 2 * (r : ℚ) := by exact_mod_cast hgt
      have hwh : 1 / 2 < w := by
        rw [hwdef, div_lt_div_iff (by norm_num) hdq]
        linarith
      have hf0 : 0 ≤ f := by
        have hfpos : (0 : ℚ) < (f : ℚ) := by linarith
        have : (0 : Int) < f := by exact_mod_cast hfpos
        omega
      have hf9 : f ≤ 9 := by
        have : (f : ℚ) < 19 / 2 := by linarith
        have h2f : (2 * f : ℚ) < 19 := by linarith
        have h2fz : (2 * f : Int) < 19 := by exact_mod_cast h2f
        omega
      refine ⟨by omega, by omega, ?_⟩
      push_cast
      have : (f : ℚ) + w - (f + 1) = w - 1 := by ring
      rw [this, abs_of_nonpos (by linarith)]
      linarith
    · rw [if_neg hgt]
      push_neg at hgt
      have hteq : 2 * r = (d : Int) := by omega
      have hteqq : 2 * (r : ℚ) = (d : ℚ) := by exact_mod_cast hteq
      have hwh : w = 1 / 2 := by
        rw [hwdef, div_eq_div_iff (ne_of_gt hdq) (by norm_num : (2 : ℚ) ≠ 0)]
        linarith
      have hf1 : 1 ≤ f := by
        have hfpos : (1 / 2 : ℚ) ≤ (f : ℚ) := by linarith
        have : (0 : Int) < f := by
          have : (0 : ℚ) < (f : ℚ) := by linarith
          exact_mod_cast this
        omega
      have hf9 : f ≤ 9 := by
        have : (f : ℚ) ≤ 19 / 2 := by linarith
        have h2f : (2 * f : ℚ) ≤ 19 := by linarith
        have h2fz : (2 * f : Int) ≤ 19 := by exact_mod_cast h2f
        omega
      by_cases hpar : f % 2 = 0
      · rw [if_pos hpar]
        refine ⟨hf1, by omega, ?_⟩
        have : (f : ℚ) + w - f = w := by ring
        rw [this, abs_of_nonneg hw0, hwh]
      · rw [if_neg hpar]
        refine ⟨by omega, by omega, ?_⟩
        push_cast
        have : (f : ℚ) + w - (f + 1) = w - 1 := by ring
        rw [this, abs_of_nonpos (by linarith), hwh]
        norm_num

/-- An uncoercible score field normalizes to five. -/
theorem normalizeScore_none {v : JValue} (h : pyFloat v = none) :
    normalizeScore v = 5 := by
  simp [normalizeScore, h]

/-- A coercible score field normalizes into [1, 10], within one half of its
clamped value. -/
theorem normalizeScore_spec (v : JValue) (q : PyNum) (h : pyFloat v = some q) :
    1 ≤ normalizeScore v ∧ normalizeScore v ≤ 10 ∧
      |max 1 (min 10 (pnVal q)) - (normalizeScore v : ℚ)| ≤ 1 / 2 := by
  have hd := pyFloat_den_pos h
  have hns : normalizeScore v = pyRoundInt
      (if pnLeB ⟨1, 1⟩ q && pnLeB q ⟨10, 1⟩ then q
        else pnMax ⟨1, 1⟩ (pnMin ⟨10, 1⟩ q)) := by
    simp only [normalizeScore, h]
  rcases clamp_spec q hd with ⟨hcd, hcv⟩
  have hlo : (1 : ℚ) ≤ pnVal (if pnLeB ⟨1, 1⟩ q && pnLeB q ⟨10, 1⟩ then q
      else pnMax ⟨1, 1⟩ (pnMin ⟨10, 1⟩ q)) := by
    rw [hcv]
    exact le_max_left 1 _
  have hhi : pnVal (if pnLeB ⟨1, 1⟩ q && pnLeB q ⟨10, 1⟩ then q
      else pnMax ⟨1, 1⟩ (pnMin ⟨10, 1⟩ q)) ≤ 10 := by
    rw [hcv]
    exact max_le (by norm_num) (min_le_left 10 _)
  obtain ⟨hb1, hb2, habs⟩ := pyRoundInt_spec _ hcd hlo hhi
  rw [hns]
  refine ⟨hb1, hb2, ?_⟩
  rw [← hcv]
  exact habs

/-- Every normalized score lies in the integer interval from one to ten. -/
theorem normalizeScore_bounds (v : JValue) :
    1 ≤ normalizeScore v ∧ normalizeScore v ≤ 10 := by
  cases h : pyFloat v with
  | none => rw [normalizeScore_none h]; exact ⟨by norm_num, by norm_num⟩
  | some q =>
    rcases normalizeScore_spec v q h with ⟨h1, h2, -⟩
    exact ⟨h1, h2⟩

/-- C9: score normalization coerces the field with float(), substitutes 5
when the coercion fails, clamps the value into [1,10] and rounds to a
nearest integer (within one half of the clamped value); in particular the
string abc yields exactly 5, the value 15 yields 10, and the value 0 yields
1. -/
theorem c9_score_normalization :
    (∀ v : JValue, pyFloat v = none → normalizeScore v = 5) ∧
    (∀ (v : JValue) (q : PyNum), pyFloat v = some q →
      1 ≤ normalizeScore v ∧ normalizeScore v ≤ 10 ∧
        |max 1 (min 10 (pnVal q)) - (normalizeScore v : ℚ)| ≤ 1 / 2) ∧
    normalizeScore (JValue.jstr strAbc) = 5 ∧
    normalizeScore (JValue.jint 15) = 10 ∧
    normalizeScore (JValue.jint 0) = 1 :=
  ⟨fun _ h => normalizeScore_none h, normalizeScore_spec, by decide, by decide, by decide⟩

/-- Witness for c9_score_normalization at a concrete coercible value. -/
theorem c9_score_normalization_witness :
    1 ≤ normalizeScore (JValue.jint 7) ∧ normalizeScore (JValue.jint 7) ≤ 10 ∧
      |max 1 (min 10 (pnVal ⟨7, 1⟩)) - (normalizeScore (JValue.jint 7) : ℚ)| ≤ 1 / 2 :=
  c9_score_normalization.2.1 (JValue.jint 7) ⟨7, 1⟩ rfl

/-- C10: extract_video_id is total — a raising urlparse (the none input) and
every lookup failure yield None rather than an exception — and produces None
for every hostname other than the three recognized ones, and for every
youtube.com URL whose path is neither /watch nor under /live/ or
/shorts/. -/
theorem c10_extract_video_id_total :
    extract_video_id none = none ∧
    (∀ p : UrlParts,
      (p.hostname ≠ some hostWww ∧ p.hostname ≠ some hostYt ∧ p.hostname ≠ some hostBe →
        extract_video_id (some p) = none) ∧
      ((p.hostname = some hostWww ∨ p.hostname = some hostYt) →
        p.path ≠ pathWatch → startsWith2 liveLit p.path = false →
        startsWith2 shortsLit p.path = false → extract_video_id (some p) = none)) := by
  refine ⟨rfl, ?_⟩
  intro p
  constructor
  · rintro ⟨h1, h2, h3⟩
    show (if p.hostname = some hostWww ∨ p.hostname = some hostYt then _ else _) = none
    rw [if_neg (by tauto), if_neg h3]
  · intro hy hw hl hs
    show (if p.hostname = some hostWww ∨ p.hostname = some hostYt then _ else _) = none
    rw [if_pos hy, if_neg hw, if_neg (by simp [hl, hs])]

/-- Witness for c10_extract_video_id_total at a concrete foreign-host
URL. -/
theorem c10_extract_video_id_total_witness :
    extract_video_id (some urlBad) = none :=
  (c10_extract_video_id_total.2 urlBad).1 (by refine ⟨?_, ?_, ?_⟩ <;> decide)

/-- A line matched by the bracket pattern starts with the opening
bracket. -/
theorem bracketMatch_head {l : List Char}
    {x : List Char × List Char × List Char × List Char}
    (h : bracketMatch l = some x) : ∃ t, l = '[' :: t := by
  unfold bracketMatch at h
  split at h
  · rename_i c0 a b c1 c d c2 e f c3 rest
    split at h
    · rename_i hcond
      exact ⟨_, by rw [hcond.1]⟩
    · exact absurd h (by simp)
  · exact absurd h (by simp)

/-- Blank lines carry no timestamp. -/
theorem lineStamp_none_of_blank {l : List Char} (h : pyStrip l = []) :
    lineStamp l = none := by
  cases hb : bracketMatch l with
  | none => simp [lineStamp, hb]
  | some x =>
    rcases bracketMatch_head hb with ⟨t, ht⟩
    have hsp := all_space_of_pyStrip_nil h '[' (by rw [ht]; simp)
    exact absurd hsp (by decide)

/-- The subtitle filtering loop is exactly a filter by the closed
interval. -/
theorem filterLoop_eq_filter (a b : Int) :
    ∀ l : List (List Char), filterLoop a b l = l.filter (fun line =>
      match lineStamp line with
      | some t => decide (a ≤ t ∧ t ≤ b)
      | none => false) := by
  intro l
  induction l with
  | nil => rfl
  | cons line rest ih =>
    simp only [filterLoop]
    by_cases hblank : pyStrip line = []
    · rw [if_pos hblank]
      have hls : lineStamp line = none := lineStamp_none_of_blank hblank
      simp [List.filter_cons, hls, ih]
    · rw [if_neg hblank]
      cases hls : lineStamp line with
      | none => simp [List.filter_cons, hls, ih]
      | some t =>
        by_cases hr : a ≤ t ∧ t ≤ b
        · simp [List.filter_cons, hls, hr, ih]
        · simp [List.filter_cons, hls, hr, ih]

/-- C8: for every validated segment, the subtitle excerpt selection keeps
exactly the transcript lines whose timestamp lies in the closed interval
between the parsed start and end seconds, inclusive at both endpoints and in
transcript order — it is the filter of the transcript by that interval.
The excerpt file content written by the driver is literally
filter_subtitles_by_time of the whole transcript at the normalized
timecodes, see processSegment. -/
theorem c8_excerpt_is_closed_interval_filter (subs : List (List Char))
    (st en : List Char) (a b : Int)
    (hst : time_to_seconds st = some a) (hen : time_to_seconds en = some b) :
    filter_subtitles_by_time subs st en = subs.filter (fun line =>
      match lineStamp line with
      | some t => decide (a ≤ t ∧ t ≤ b)
      | none => false) := by
  unfold filter_subtitles_by_time
  simp only [hst, hen]
  exact filterLoop_eq_filter a b subs

/-- Witness for c8_excerpt_is_closed_interval_filter at the end-to-end
scenario of the specification: both lines fall inside [0, 15]. -/
theorem c8_excerpt_is_closed_interval_filter_witness :
    filter_subtitles_by_time subsC8 tc0000 tc0015 = subsC8.filter (fun line =>
      match lineStamp line with
      | some t => decide ((0 : Int) ≤ t ∧ t ≤ 15)
      | none => false) :=
  c8_excerpt_is_closed_interval_filter subsC8 tc0000 tc0015 0 15 (by decide) (by decide)

/-- A successful flexible parse reconverts its canonical text to its seconds
value. -/
theorem parse_timecode_tts {l st : List Char} {v : Int}
    (h : parse_timecode l = some (st, v)) : time_to_seconds st = some v := by
  unfold parse_timecode at h
  split at h
  · rename_i g1 g2 g3 heq
    split at h
    · rename_i v2 heq2
      have hpair : (normTime g1 g2 g3, v2) = (st, v) := by injection h
      rcases Prod.mk.injEq .. ▸ hpair with ⟨h1, h2⟩
      rw [← h1, heq2, h2]
    · exact absurd h (by simp)
  · exact absurd h (by simp)

/-- The timecode stage of a surviving candidate yields reconvertible
canonical timecodes. -/
theorem parseSegTimes_tts {fields : List (List Char × JValue)}
    {st en : List Char} {ss es : Int}
    (h : parseSegTimes fields = some (st, en, ss, es)) :
    time_to_seconds st = some ss ∧ time_to_seconds en = some es := by
  unfold parseSegTimes at h
  split at h
  · rename_i s0 e0 heq1 heq2
    split at h
    · rename_i st0 ss0 en0 es0 hp1 hp2
      have hpair : (st0, en0, ss0, es0) = (st, en, ss, es) := by injection h
      have h1 : st0 = st := congrArg (fun p => p.1) hpair
      have h2 : en0 = en := congrArg (fun p => p.2.1) hpair
      have h3 : ss0 = ss := congrArg (fun p => p.2.2.1) hpair
      have h4 : es0 = es := congrArg (fun p => p.2.2.2) hpair
      subst h1; subst h2; subst h3; subst h4
      exact ⟨parse_timecode_tts hp1, parse_timecode_tts hp2⟩
    · exact absurd h (by simp)
  · exact absurd h (by simp)

/-- The normalized reason is always at least ten characters: either the
stripped text already is, or the fallback sentence is. -/
theorem reasonOf_len (fields : List (List Char × JValue)) :
    10 ≤ (reasonOf fields).length := by
  unfold reasonOf
  by_cases h : 10 ≤ (pyStrip (pyStr ((fields.lookup keyReason).getD JValue.null))).length
  · rw [if_pos h]
    exact h
  · rw [if_neg h]
    decide

/-- Every record a candidate survives into has reconvertible canonical
timecodes, all four scores in [1, 10], and a reason of at least ten
characters. -/
theorem processSegment_some {vid : List Char} {subs : List (List Char)}
    {sfile : List Char} {fok : TrimCall → Bool} {k : Nat} {seg : JValue}
    {rec : SegRecord}
    (h : (processSegment vid subs sfile fok k seg).2.2 = some rec) :
    (∃ ss, time_to_seconds rec.start_time = some ss) ∧
    (∃ es, time_to_seconds rec.end_time = some es) ∧
    1 ≤ rec.impact ∧ rec.impact ≤ 10 ∧
    1 ≤ rec.uniqueness ∧ rec.uniqueness ≤ 10 ∧
    1 ≤ rec.timeliness ∧ rec.timeliness ≤ 10 ∧
    1 ≤ rec.entertainment ∧ rec.entertainment ≤ 10 ∧
    10 ≤ rec.reason.length := by
  unfold processSegment at h
  split at h
  · rename_i fields
    split at h
    · split at h
      · rename_i parsed st en ss es hpt
        dsimp only at h
        split at h
        · injection h with hrec
          subst hrec
          rcases parseSegTimes_tts hpt with ⟨hts, hte⟩
          refine ⟨⟨ss, hts⟩, ⟨es, hte⟩, ?_, ?_, ?_, ?_, ?_, ?_, ?_, ?_, ?_⟩
          · exact (normalizeScore_bounds _).1
          · exact (normalizeScore_bounds _).2
          · exact (normalizeScore_bounds _).1
          · exact (normalizeScore_bounds _).2
          · exact (normalizeScore_bounds _).1
          · exact (normalizeScore_bounds _).2
          · exact (normalizeScore_bounds _).1
          · exact (normalizeScore_bounds _).2
          · exact reasonOf_len fields
        · exact Option.noConfusion h
      · exact Option.noConfusion h
    · exact Option.noConfusion h
  · exact Option.noConfusion h

/-- Every record in the loop output survives from some candidate of the
array. -/
theorem segLoop_mem {vid : List Char} {subs : List (List Char)}
    {sfile : List Char} {fok : TrimCall → Bool} :
    ∀ (segs : List JValue) (k : Nat) (rec : SegRecord),
      rec ∈ (segLoop vid subs sfile fok segs k).1 →
      ∃ seg k2, seg ∈ segs ∧
        (processSegment vid subs sfile fok k2 seg).2.2 = some rec := by
  intro segs
  induction segs with
  | nil =>
    intro k rec h
    simp [segLoop] at h
  | cons seg rest ih =>
    intro k rec h
    cases hstep : (processSegment vid subs sfile fok k seg).2.2 with
    | some r =>
      have hred : (segLoop vid subs sfile fok (seg :: rest) k).1 =
          r :: (segLoop vid subs sfile fok rest (k + 1)).1 := by
        simp only [segLoop, hstep]
      rw [hred] at h
      rcases List.mem_cons.mp h with h | h
      · exact ⟨seg, k, by simp, by rw [hstep, h]⟩
      · rcases ih (k + 1) rec h with ⟨s2, k2, hs2, hp⟩
        exact ⟨s2, k2, by simp [hs2], hp⟩
    | none =>
      have hred : (segLoop vid subs sfile fok (seg :: rest) k).1 =
          (segLoop vid subs sfile fok rest k).1 := by
        simp only [segLoop, hstep]
      rw [hred] at h
      rcases ih k rec h with ⟨s2, k2, hs2, hp⟩
      exact ⟨s2, k2, by simp [hs2], hp⟩

/-- Removing a candidate that is skipped at every counter value leaves the
surviving records of all other candidates unchanged. -/
theorem segLoop_skip {vid : List Char} {subs : List (List Char)}
    {sfile : List Char} {fok : TrimCall → Bool} (b : JValue)
    (hb : ∀ j, (processSegment vid subs sfile fok j b).2.2 = none) :
    ∀ (xs ys : List JValue) (k : Nat),
      (segLoop vid subs sfile fok (xs ++ b :: ys) k).1 =
        (segLoop vid subs sfile fok (xs ++ ys) k).1 := by
  intro xs
  induction xs with
  | nil =>
    intro ys k
    simp only [List.nil_append, segLoop, hb k]
  | cons x xs ih =>
    intro ys k
    cases hstep : (processSegment vid subs sfile fok k x).2.2 with
    | some r =>
      have h1 : (segLoop vid subs sfile fok ((x :: xs) ++ b :: ys) k).1 =
          r :: (segLoop vid subs sfile fok (xs ++ b :: ys) (k + 1)).1 := by
        simp only [List.cons_append, segLoop, hstep]
        rfl
      have h2 : (segLoop vid subs sfile fok ((x :: xs) ++ ys) k).1 =
          r :: (segLoop vid subs sfile fok (xs ++ ys) (k + 1)).1 := by
        simp only [List.cons_append, segLoop, hstep]
        rfl
      rw [h1, h2, ih ys (k + 1)]
    | none =>
      have h1 : (segLoop vid subs sfile fok ((x :: xs) ++ b :: ys) k).1 =
          (segLoop vid subs sfile fok (xs ++ b :: ys) k).1 := by
        simp only [List.cons_append, segLoop, hstep]
        rfl
      have h2 : (segLoop vid subs sfile fok ((x :: xs) ++ ys) k).1 =
          (segLoop vid subs sfile fok (xs ++ ys) k).1 := by
        simp only [List.cons_append, segLoop, hstep]
        rfl
      rw [h1, h2, ih ys k]

/-- Candidate processing never emits the cleanup event. -/
theorem processSegment_no_unlink (vid : List Char) (subs : List (List Char))
    (sfile : List Char) (fok : TrimCall → Bool) (k : Nat) (seg : JValue) :
    Event.unlinkTemp ∉ (processSegment vid subs sfile fok k seg).2.1 := by
  unfold processSegment
  split
  · split
    · split
      · dsimp only
        split
        · simp
        · simp
      · simp
    · simp
  · simp

/-- The cutting loop never emits the cleanup event. -/
theorem segLoop_no_unlink {vid : List Char} {subs : List (List Char)}
    {sfile : List Char} {fok : TrimCall → Bool} :
    ∀ (segs : List JValue) (k : Nat),
      Event.unlinkTemp ∉ (segLoop vid subs sfile fok segs k).2.2 := by
  intro segs
  induction segs with
  | nil =>
    intro k
    simp [segLoop]
  | cons seg rest ih =>
    intro k
    cases hstep : (processSegment vid subs sfile fok k seg).2.2 with
    | some r =>
      have hred : (segLoop vid subs sfile fok (seg :: rest) k).2.2 =
          (processSegment vid subs sfile fok k seg).2.1 ++
            (segLoop vid subs sfile fok rest (k + 1)).2.2 := by
        simp only [segLoop, hstep]
      rw [hred]
      intro hmem
      rcases List.mem_append.mp hmem with hmem | hmem
      · exact processSegment_no_unlink vid subs sfile fok k seg hmem
      · exact ih (k + 1) hmem
    | none =>
      have hred : (segLoop vid subs sfile fok (seg :: rest) k).2.2 =
          (processSegment vid subs sfile fok k seg).2.1 ++
            (segLoop vid subs sfile fok rest k).2.2 := by
        simp only [segLoop, hstep]
      rw [hred]
      intro hmem
      rcases List.mem_append.mp hmem with hmem | hmem
      · exact processSegment_no_unlink vid subs sfile fok k seg hmem
      · exact ih k hmem

/-- Result of a run that reached the cutting loop: none exactly when no
record survived. -/
theorem finishRun_result (env : ExtractEnv) (vid : List Char)
    (subs : List (List Char)) (segs : List JValue) (ev0 : List Event) :
    (finishRun env vid subs segs ev0).result =
      (if (segLoop vid subs env.subtitle_file env.ffmpegOk segs 0).1.isEmpty then none
       else some ((segLoop vid subs env.subtitle_file env.ffmpegOk segs 0).1)) := by
  unfold finishRun
  dsimp only
  split <;> rfl

/-- A run that reached the cutting loop always ends with the temp file
gone. -/
theorem finishRun_tempExists (env : ExtractEnv) (vid : List Char)
    (subs : List (List Char)) (segs : List JValue) (ev0 : List Event) :
    (finishRun env vid subs segs ev0).tempExists = false := by
  unfold finishRun
  dsimp only
  split <;> rfl

/-- Event trace of a run that reached the cutting loop: the download-phase
events, the loop events, then the final unlink. -/
theorem finishRun_events (env : ExtractEnv) (vid : List Char)
    (subs : List (List Char)) (segs : List JValue) (ev0 : List Event) :
    (finishRun env vid subs segs ev0).events =
      ev0 ++ (segLoop vid subs env.subtitle_file env.ffmpegOk segs 0).2.2 ++
        [Event.unlinkTemp] := by
  unfold finishRun
  dsimp only
  split <;> rfl

/-- Unfolding of the driver when the reply does not decode. -/
theorem extract_segments_reply_none {env : ExtractEnv} (hr : env.reply = none) :
    extract_segments env = ⟨none, env.tempExists0, [], []⟩ := by
  simp only [extract_segments, hr]

/-- Unfolding of the driver when the reply decodes but is not a non-empty
array (the falsy-or-not-a-list check of line 333). -/
theorem extract_segments_not_array {env : ExtractEnv} {j : JValue}
    (hr : env.reply = some j) (hj : ∀ s rest, j ≠ JValue.jarr (s :: rest)) :
    extract_segments env = ⟨none, env.tempExists0, [], []⟩ := by
  cases j with
  | jarr elems =>
    cases elems with
    | nil => simp only [extract_segments, hr]
    | cons s rest => exact absurd rfl (hj s rest)
  | null => simp only [extract_segments, hr]
  | jbool b => simp only [extract_segments, hr]
  | jint n => simp only [extract_segments, hr]
  | jnum q => simp only [extract_segments, hr]
  | jstr s => simp only [extract_segments, hr]
  | jobj fields => simp only [extract_segments, hr]

/-- Unfolding of the driver when the reply is a non-empty array but the URL
has no video id. -/
theorem extract_segments_bad_url {env : ExtractEnv} {s : JValue}
    {rest : List JValue} (hr : env.reply = some (JValue.jarr (s :: rest)))
    (hv : extract_video_id env.url = none) :
    extract_segments env = ⟨none, env.tempExists0, [], []⟩ := by
  simp only [extract_segments, hr, hv]

/-- Unfolding of the driver when the transcript file read raises. -/
theorem extract_segments_bad_file {env : ExtractEnv} {s : JValue}
    {rest : List JValue} {vid : List Char}
    (hr : env.reply = some (JValue.jarr (s :: rest)))
    (hv : extract_video_id env.url = some vid) (hc : env.fileContent = none) :
    extract_segments env = ⟨none, env.tempExists0, [], []⟩ := by
  simp only [extract_segments, hr, hv, hc]

/-- Unfolding of the driver when the temp file already exists. -/
theorem extract_segments_temp {env : ExtractEnv} {s : JValue}
    {rest : List JValue} {vid : List Char} {subs : List (List Char)}
    (hr : env.reply = some (JValue.jarr (s :: rest)))
    (hv : extract_video_id env.url = some vid)
    (hc : env.fileContent = some subs) (ht : env.tempExists0 = true) :
    extract_segments env = finishRun env vid subs (s :: rest) [] := by
  simp only [extract_segments, hr, hv, hc, ht, if_pos]

/-- Unfolding of the driver when the download runs and succeeds. -/
theorem extract_segments_download {env : ExtractEnv} {s : JValue}
    {rest : List JValue} {vid : List Char} {subs : List (List Char)}
    (hr : env.reply = some (JValue.jarr (s :: rest)))
    (hv : extract_video_id env.url = some vid)
    (hc : env.fileContent = some subs) (ht : env.tempExists0 = false)
    (hd : env.downloadOk = true) :
    extract_segments env = finishRun env vid subs (s :: rest) [Event.download] := by
  simp only [extract_segments, hr, hv, hc, ht, hd]
  rfl

/-- Unfolding of the driver when the download runs and raises. -/
theorem extract_segments_download_fail {env : ExtractEnv} {s : JValue}
    {rest : List JValue} {vid : List Char} {subs : List (List Char)}
    (hr : env.reply = some (JValue.jarr (s :: rest)))
    (hv : extract_video_id env.url = some vid)
    (hc : env.fileContent = some subs) (ht : env.tempExists0 = false)
    (hd : env.downloadOk = false) :
    extract_segments env = ⟨none, false, [],
      Event.download ::
        (if env.downloadLeftFile then [Event.unlinkTemp] else [])⟩ := by
  simp only [extract_segments, hr, hv, hc, ht, hd]
  rfl

/-- C5 (amended): the run returns the failure value exactly when the reply
fails to decode to a non-empty array, or the video URL yields no id, or the
transcript file cannot be read, or the download is needed and fails, or zero
candidates survive the cutting loop; and when the reply is not a non-empty
array, no files are created and no external effect happens. -/
theorem c5_failure_characterization (env : ExtractEnv) :
    ((extract_segments env).result = none ↔
      replyArr env = none ∨ extract_video_id env.url = none ∨
      env.fileContent = none ∨
      (env.tempExists0 = false ∧ env.downloadOk = false) ∨
      (∃ segs vid subs, replyArr env = some segs ∧
        extract_video_id env.url = some vid ∧ env.fileContent = some subs ∧
        (segLoop vid subs env.subtitle_file env.ffmpegOk segs 0).1 = [])) ∧
    (replyArr env = none →
      (extract_segments env).files = [] ∧ (extract_segments env).events = []) := by
  constructor
  · cases hr : env.reply with
    | none =>
      have hra : replyArr env = none := by simp [replyArr, hr]
      rw [extract_segments_reply_none hr]
      exact iff_of_true rfl (Or.inl hra)
    | some j =>
      cases j with
      | jarr elems =>
        cases elems with
        | nil =>
          have hra : replyArr env = none := by simp [replyArr, hr]
          rw [extract_segments_not_array hr (by intro s rest hcon; exact absurd hcon (by simp))]
          exact iff_of_true rfl (Or.inl hra)
        | cons s rest =>
          have hra : replyArr env = some (s :: rest) := by simp [replyArr, hr]
          cases hv : extract_video_id env.url with
          | none =>
            rw [extract_segments_bad_url hr hv]
            exact iff_of_true rfl (Or.inr (Or.inl rfl))
          | some vid =>
            cases hc : env.fileContent with
            | none =>
              rw [extract_segments_bad_file hr hv hc]
              exact iff_of_true rfl (Or.inr (Or.inr (Or.inl rfl)))
            | some subs =>
              cases ht : env.tempExists0 with
              | true =>
                rw [extract_segments_temp hr hv hc ht, finishRun_result]
                by_cases hl :
                    (segLoop vid subs env.subtitle_file env.ffmpegOk (s :: rest) 0).1 = []
                · rw [if_pos (List.isEmpty_iff.mpr hl)]
                  exact iff_of_true rfl
                    (Or.inr (Or.inr (Or.inr (Or.inr ⟨s :: rest, vid, subs, hra, rfl, rfl, hl⟩))))
                · rw [if_neg (by simp only [List.isEmpty_iff]; exact hl)]
                  apply iff_of_false
                  · simp
                  · rintro (hcon | hcon | hcon | hcon | ⟨segs2, vid2, subs2, h1, h2, h3, h4⟩)
                    · rw [hra] at hcon; exact Option.noConfusion hcon
                    · exact Option.noConfusion hcon
                    · exact Option.noConfusion hcon
                    · exact Bool.noConfusion hcon.1
                    · rw [hra] at h1
                      injection h1 with h1
                      injection h2 with h2
                      injection h3 with h3
                      subst h1
                      subst h2
                      subst h3
                      exact hl h4
              | false =>
                cases hd : env.downloadOk with
                | true =>
                  rw [extract_segments_download hr hv hc ht hd, finishRun_result]
                  by_cases hl :
                      (segLoop vid subs env.subtitle_file env.ffmpegOk (s :: rest) 0).1 = []
                  · rw [if_pos (List.isEmpty_iff.mpr hl)]
                    exact iff_of_true rfl
                      (Or.inr (Or.inr (Or.inr (Or.inr ⟨s :: rest, vid, subs, hra, rfl, rfl, hl⟩))))
                  · rw [if_neg (by simp only [List.isEmpty_iff]; exact hl)]
                    apply iff_of_false
                    · simp
                    · rintro (hcon | hcon | hcon | hcon | ⟨segs2, vid2, subs2, h1, h2, h3, h4⟩)
                      · rw [hra] at hcon; exact Option.noConfusion hcon
                      · exact Option.noConfusion hcon
                      · exact Option.noConfusion hcon
                      · exact Bool.noConfusion hcon.2
                      · rw [hra] at h1
                        injection h1 with h1
                        injection h2 with h2
                        injection h3 with h3
                        subst h1
                        subst h2
                        subst h3
                        exact hl h4
                | false =>
                  rw [extract_segments_download_fail hr hv hc ht hd]
                  exact iff_of_true rfl (Or.inr (Or.inr (Or.inr (Or.inl ⟨rfl, rfl⟩))))
      | null =>
        have hra : replyArr env = none := by simp [replyArr, hr]
        rw [extract_segments_not_array hr (by intro s rest hcon; exact absurd hcon (by simp))]
        exact iff_of_true rfl (Or.inl hra)
      | jbool b =>
        have hra : replyArr env = none := by simp [replyArr, hr]
        rw [extract_segments_not_array hr (by intro s rest hcon; exact absurd hcon (by simp))]
        exact iff_of_true rfl (Or.inl hra)
      | jint n =>
        have hra : replyArr env = none := by simp [replyArr, hr]
        rw [extract_segments_not_array hr (by intro s rest hcon; exact absurd hcon (by simp))]
        exact iff_of_true rfl (Or.inl hra)
      | jnum q =>
        have hra : replyArr env = none := by simp [replyArr, hr]
        rw [extract_segments_not_array hr (by intro s rest hcon; exact absurd hcon (by simp))]
        exact iff_of_true rfl (Or.inl hra)
      | jstr s =>
        have hra : replyArr env = none := by simp [replyArr, hr]
        rw [extract_segments_not_array hr (by intro s rest hcon; exact absurd hcon (by simp))]
        exact iff_of_true rfl (Or.inl hra)
      | jobj fields =>
        have hra : replyArr env = none := by simp [replyArr, hr]
        rw [extract_segments_not_array hr (by intro s rest hcon; exact absurd hcon (by simp))]
        exact iff_of_true rfl (Or.inl hra)
  · intro hra
    cases hr : env.reply with
    | none =>
      rw [extract_segments_reply_none hr]
      exact ⟨rfl, rfl⟩
    | some j =>
      have hne : ∀ s rest, j ≠ JValue.jarr (s :: rest) := by
        intro s rest hcon
        subst hcon
        unfold replyArr at hra
        rw [hr] at hra
        simp at hra
      rw [extract_segments_not_array hr hne]
      exact ⟨rfl, rfl⟩

/-- Decoded non-empty arrays come from a reply holding exactly that
array. -/
theorem replyArr_some {env : ExtractEnv} {segs : List JValue}
    (h : replyArr env = some segs) :
    ∃ s rest, segs = s :: rest ∧ env.reply = some (JValue.jarr (s :: rest)) := by
  unfold replyArr at h
  cases hr : env.reply with
  | none => rw [hr] at h; simp at h
  | some j =>
    rw [hr] at h
    cases j with
    | jarr elems =>
      cases elems with
      | nil => simp at h
      | cons s rest =>
        have hs : segs = s :: rest := by
          have h2 : some (s :: rest) = some segs := h
          injection h2 with h2
          exact h2.symm
        exact ⟨s, rest, hs, rfl⟩
    | null => simp at h
    | jbool b => simp at h
    | jint n => simp at h
    | jnum q => simp at h
    | jstr s => simp at h
    | jobj fields => simp at h

/-- A list ending in a unique marker decomposes at that marker only with an
empty tail. -/
theorem append_singleton_unique :
    ∀ (A l₁ l₂ : List Event) (x : Event), x ∉ A → A ++ [x] = l₁ ++ x :: l₂ →
      l₂ = [] := by
  intro A
  induction A with
  | nil =>
    intro l₁ l₂ x hx h
    cases l₁ with
    | nil =>
      simp only [List.nil_append] at h
      injection h with h1 h2
      exact h2.symm
    | cons y t =>
      simp only [List.nil_append, List.cons_append] at h
      injection h with h1 h2
      exact absurd h2.symm (by simp)
  | cons a A ih =>
    intro l₁ l₂ x hx h
    cases l₁ with
    | nil =>
      simp only [List.cons_append, List.nil_append] at h
      injection h with h1 h2
      subst h1
      exact absurd (List.mem_cons_self a A) hx
    | cons b t =>
      simp only [List.cons_append] at h
      injection h with h1 h2
      exact ih t l₂ x (fun hm => hx (List.mem_cons_of_mem a hm)) h2

/-- The event trace of any run is empty, just the download attempt, or a
prefix without cleanup followed by the one final cleanup. -/
theorem extract_segments_trace_shape (env : ExtractEnv) :
    (extract_segments env).events = [] ∨
    (extract_segments env).events = [Event.download] ∨
    (∃ A, (extract_segments env).events = A ++ [Event.unlinkTemp] ∧
      Event.unlinkTemp ∉ A) := by
  cases hr : env.reply with
  | none =>
    rw [extract_segments_reply_none hr]
    exact Or.inl rfl
  | some j =>
    by_cases hj : ∀ s rest, j ≠ JValue.jarr (s :: rest)
    · rw [extract_segments_not_array hr hj]
      exact Or.inl rfl
    · push_neg at hj
      rcases hj with ⟨s, rest, hj⟩
      subst hj
      cases hv : extract_video_id env.url with
      | none =>
        rw [extract_segments_bad_url hr hv]
        exact Or.inl rfl
      | some vid =>
        cases hc : env.fileContent with
        | none =>
          rw [extract_segments_bad_file hr hv hc]
          exact Or.inl rfl
        | some subs =>
          cases ht : env.tempExists0 with
          | true =>
            rw [extract_segments_temp hr hv hc ht, finishRun_events]
            refine Or.inr (Or.inr ⟨[] ++
              (segLoop vid subs env.subtitle_file env.ffmpegOk (s :: rest) 0).2.2, ?_, ?_⟩)
            · rw [List.append_assoc]
            · intro hmem
              rcases List.mem_append.mp hmem with hmem | hmem
              · simp at hmem
              · exact segLoop_no_unlink (s :: rest) 0 hmem
          | false =>
            cases hd : env.downloadOk with
            | true =>
              rw [extract_segments_download hr hv hc ht hd, finishRun_events]
              refine Or.inr (Or.inr ⟨[Event.download] ++
                (segLoop vid subs env.subtitle_file env.ffmpegOk (s :: rest) 0).2.2, ?_, ?_⟩)
              · rw [List.append_assoc]
              · intro hmem
                rcases List.mem_append.mp hmem with hmem | hmem
                · simp at hmem
                · exact segLoop_no_unlink (s :: rest) 0 hmem
            | false =>
              rw [extract_segments_download_fail hr hv hc ht hd]
              cases hdl : env.downloadLeftFile with
              | true =>
                exact Or.inr (Or.inr ⟨[Event.download], rfl, by simp⟩)
              | false =>
                exact Or.inr (Or.inl rfl)

/-- C7 (amended): every run that reaches the download phase (decodable
non-empty array, valid video id, readable transcript file) ends with the
shared temp file absent — success, zero-survivor failure, and download
failure alike — and in every run whatsoever the cleanup only happens after
all cutting: no trim event ever follows an unlink event.  Early exits
(unparseable reply, non-array or empty reply, invalid URL, unreadable
transcript) do not touch the temp file, so a pre-existing file survives
them, which is the corrected part of the claim. -/
theorem c7_temp_cleanup (env : ExtractEnv) :
    (∀ segs vid subs, replyArr env = some segs →
      extract_video_id env.url = some vid → env.fileContent = some subs →
      (extract_segments env).tempExists = false) ∧
    (∀ l₁ l₂, (extract_segments env).events = l₁ ++ Event.unlinkTemp :: l₂ →
      ∀ c, Event.trim c ∉ l₂) := by
  constructor
  · intro segs vid subs hra hv hc
    rcases replyArr_some hra with ⟨s, rest, hsegs, hr⟩
    cases ht : env.tempExists0 with
    | true =>
      rw [extract_segments_temp hr hv hc ht]
      exact finishRun_tempExists env vid subs (s :: rest) []
    | false =>
      cases hd : env.downloadOk with
      | true =>
        rw [extract_segments_download hr hv hc ht hd]
        exact finishRun_tempExists env vid subs (s :: rest) [Event.download]
      | false =>
        rw [extract_segments_download_fail hr hv hc ht hd]
  · intro l₁ l₂ hdec c hmem
    rcases extract_segments_trace_shape env with hsh | hsh | ⟨A, hsh, hA⟩
    · rw [hsh] at hdec
      exact absurd hdec.symm (by simp)
    · rw [hsh] at hdec
      have : Event.unlinkTemp ∈ ([Event.download] : List Event) := by
        rw [hdec]
        simp
      simp at this
    · rw [hsh] at hdec
      have hnil := append_singleton_unique A l₁ l₂ Event.unlinkTemp hA hdec
      rw [hnil] at hmem
      simp at hmem

/-- Witness for c7_temp_cleanup: the sample run deletes the pre-existing
temp file. -/
theorem c7_temp_cleanup_witness :
    (extract_segments envC1).tempExists = false :=
  (c7_temp_cleanup envC1).1 [segC1] vidAbc []
    rfl (by decide) (by decide)

/-- C7 counterexample: with a pre-existing temp file, a run whose reply does
not even parse exits with the file still present — the claim that the file
does not persist on every exit path fails on the JSON-failure path. -/
theorem c7_counterexample :
    (extract_segments envC7).tempExists = true ∧
      (extract_segments envC7).result = none := ⟨rfl, rfl⟩

/-- C5 counterexample: with a perfectly valid non-empty candidate array, a
run can still fail for a reason the claim does not list — here an invalid
URL (a foreign hostname); the very same reply succeeds when only the URL is
changed back, so the failure is not among the three listed causes. -/
theorem c5_counterexample :
    (replyArr envC5bad).isSome = true ∧
    extract_video_id envC5bad.url = none ∧
    (extract_segments envC5bad).result = none ∧
    (extract_segments envC1).result.isSome = true :=
  ⟨rfl, by decide, rfl, rfl⟩

/-- Witness for c5_failure_characterization: the characterization applied to
the unparseable-reply environment yields failure with no files and no
events. -/
theorem c5_failure_characterization_witness :
    (extract_segments envC7).result = none ∧
      (extract_segments envC7).files = [] :=
  ⟨(c5_failure_characterization envC7).1.mpr (Or.inl rfl),
   ((c5_failure_characterization envC7).2 rfl).1⟩

/-- C1 (amended): construction either fully succeeds or the candidate is
dropped — every record emitted by a run has start and end timecodes that
convert back to seconds, all four scores in the closed interval one to ten,
and a reason of at least ten characters — but no ordering between start and
end is enforced: the claimed start-strictly-before-end invariant is not
checked anywhere and fails on records with equal endpoints. -/
theorem c1_emitted_record_wellformed (env : ExtractEnv)
    (recs : List SegRecord) (h : (extract_segments env).result = some recs) :
    ∀ rec ∈ recs,
      (∃ ss, time_to_seconds rec.start_time = some ss) ∧
      (∃ es, time_to_seconds rec.end_time = some es) ∧
      1 ≤ rec.impact ∧ rec.impact ≤ 10 ∧
      1 ≤ rec.uniqueness ∧ rec.uniqueness ≤ 10 ∧
      1 ≤ rec.timeliness ∧ rec.timeliness ≤ 10 ∧
      1 ≤ rec.entertainment ∧ rec.entertainment ≤ 10 ∧
      10 ≤ rec.reason.length := by
  intro rec hmem
  have hkey : ∃ vid subs segs,
      recs = (segLoop vid subs env.subtitle_file env.ffmpegOk segs 0).1 := by
    cases hr : env.reply with
    | none =>
      rw [extract_segments_reply_none hr] at h
      simp at h
    | some j =>
      by_cases hj : ∀ s rest, j ≠ JValue.jarr (s :: rest)
      · rw [extract_segments_not_array hr hj] at h
        simp at h
      · push_neg at hj
        rcases hj with ⟨s, rest, hj⟩
        subst hj
        cases hv : extract_video_id env.url with
        | none =>
          rw [extract_segments_bad_url hr hv] at h
          simp at h
        | some vid =>
          cases hc : env.fileContent with
          | none =>
            rw [extract_segments_bad_file hr hv hc] at h
            simp at h
          | some subs =>
            have hfin : ∀ ev0,
                (finishRun env vid subs (s :: rest) ev0).result = some recs →
                recs = (segLoop vid subs env.subtitle_file env.ffmpegOk (s :: rest) 0).1 := by
              intro ev0 hf
              rw [finishRun_result] at hf
              split at hf
              · simp at hf
              · injection hf with hf
                exact hf.symm
            cases ht : env.tempExists0 with
            | true =>
              rw [extract_segments_temp hr hv hc ht] at h
              exact ⟨vid, subs, s :: rest, hfin [] h⟩
            | false =>
              cases hd : env.downloadOk with
              | true =>
                rw [extract_segments_download hr hv hc ht hd] at h
                exact ⟨vid, subs, s :: rest, hfin [Event.download] h⟩
              | false =>
                rw [extract_segments_download_fail hr hv hc ht hd] at h
                simp at h
  rcases hkey with ⟨vid, subs, segs, hkey⟩
  rw [hkey] at hmem
  rcases segLoop_mem segs 0 rec hmem with ⟨seg, k2, hsmem, hps⟩
  exact processSegment_some hps

/-- Witness for c1_emitted_record_wellformed: the sample run emits exactly
the record recC1, and all the guarantees hold of it. -/
theorem c1_emitted_record_wellformed_witness :
    (∃ ss, time_to_seconds recC1.start_time = some ss) ∧
    (∃ es, time_to_seconds recC1.end_time = some es) ∧
    1 ≤ recC1.impact ∧ recC1.impact ≤ 10 ∧
    1 ≤ recC1.uniqueness ∧ recC1.uniqueness ≤ 10 ∧
    1 ≤ recC1.timeliness ∧ recC1.timeliness ≤ 10 ∧
    1 ≤ recC1.entertainment ∧ recC1.entertainment ≤ 10 ∧
    10 ≤ recC1.reason.length :=
  c1_emitted_record_wellformed envC1 [recC1] rfl recC1 (List.mem_singleton.mpr rfl)

/-- C1 counterexample: the sample run emits a record whose start equals its
end — both parse to ten seconds — so the start-strictly-before-end invariant
claimed of every emitted record is false, and such candidates are not
dropped. -/
theorem c1_counterexample :
    (extract_segments envC1).result = some [recC1] ∧
    recC1.start_time = recC1.end_time ∧
    time_to_seconds recC1.start_time = some 10 ∧
    time_to_seconds recC1.end_time = some 10 :=
  ⟨rfl, rfl, rfl, rfl⟩

/-- C6: a candidate failing per-segment validation — a missing required
field, an unparseable start or end timecode, or a failing trim command —
is skipped and the emitted records are exactly those of the same batch with
the offending candidate removed, wherever it sits in the array: one bad
segment never aborts the batch. -/
theorem c6_per_segment_error_local (vid : List Char) (subs : List (List Char))
    (sfile : List Char) (fok : TrimCall → Bool) (b : JValue)
    (hb : ∀ fields, b = JValue.jobj fields →
      requiredPresent fields = false ∨ parseSegTimes fields = none ∨
      ∀ st en ss es, parseSegTimes fields = some (st, en, ss, es) →
        fok ⟨ss, es - ss, clipStem vid st en ++ litMp4⟩ = false) :
    ∀ (xs ys : List JValue) (k : Nat),
      (segLoop vid subs sfile fok (xs ++ b :: ys) k).1 =
        (segLoop vid subs sfile fok (xs ++ ys) k).1 := by
  have hskip : ∀ j, (processSegment vid subs sfile fok j b).2.2 = none := by
    intro j
    cases hbv : b with
    | jobj fields =>
      rcases hb fields hbv with h1 | h2 | h3
      · simp [processSegment, h1]
      · by_cases hreq : requiredPresent fields
        · simp [processSegment, hreq, h2]
        · simp [processSegment, hreq]
      · by_cases hreq : requiredPresent fields
        · cases hp : parseSegTimes fields with
          | none => simp [processSegment, hreq, hp]
          | some tup =>
            rcases tup with ⟨st, en, ss, es⟩
            have hf := h3 st en ss es hp
            simp [processSegment, hreq, hp, hf]
        · simp [processSegment, hreq]
    | null => rfl
    | jbool bv => rfl
    | jint n => rfl
    | jnum q => rfl
    | jstr s => rfl
    | jarr elems => rfl
  intro xs ys k
  exact segLoop_skip b hskip xs ys k

/-- Witness for c6_per_segment_error_local: a fieldless candidate dropped
between two good ones leaves the emitted records of the good ones
unchanged. -/
theorem c6_per_segment_error_local_witness :
    (segLoop vidAbc [] sfileLit (fun t => true)
        ([segC1] ++ JValue.jobj [] :: [segC1]) 0).1 =
      (segLoop vidAbc [] sfileLit (fun t => true) ([segC1] ++ [segC1]) 0).1 :=
  c6_per_segment_error_local vidAbc [] sfileLit (fun t => true)
    (JValue.jobj [])
    (fun fields hf => Or.inl (by
      have h3 : JValue.jobj ([] : List (List Char × JValue)) =
          JValue.jobj fields := hf
      injection h3 with h2
      rw [← h2]
      rfl))
    [segC1] [segC1] 0
